import Mathlib

/-!
Verification of the `TopMap` container from `rust-top-map` (`src/lib.rs`).

The container keeps a bounded sliding *window* of directly addressable slots
(`top`, a `FixedVecDeque` of `Option<(Key, Value)>` in the source) in front of
an ordered *overflow* map (`rest`, a `BTreeMap`).  We shallowly embed the code:

* keys are `Int` (the source works with `isize` keys via `isize: From<Key>`);
* the window `top` is a `List (Option (Int × α))`; the front of the deque is
  the head of the list; the fixed capacity `A::max_size()` is the parameter
  `w`, and `A::min_size()` is `w / 2` (`lib.rs` lines 36-42);
* the `BTreeMap` overflow store is a strictly-sorted association list
  `List (Int × α)`; `rest.iter().next()` (minimum entry) is its head.

Every operation is translated from the source one match arm at a time.  The
source's panic sites (`expect`, `unwrap`) are modelled by total fallback
branches; the development proves those branches unreachable from reachable
states.
-/

namespace RustTopMap

/-- A sorted association list standing in for `BTreeMap<isize, Value>`:
`BTreeMap::get`. -/
def btreeGet {α : Type} (k : Int) : List (Int × α) → Option α
  | [] => none
  | q :: l => if k = q.1 then some q.2 else btreeGet k l

/-- `BTreeMap::insert`: returns the previous value (if any) and the new map,
keeping the list sorted by key. -/
def btreeInsert {α : Type} (k : Int) (v : α) : List (Int × α) → Option α × List (Int × α)
  | [] => (none, [(k, v)])
  | q :: l =>
    if k < q.1 then (none, (k, v) :: q :: l)
    else if k = q.1 then (some q.2, (k, v) :: l)
    else
      let r := btreeInsert k v l
      (r.1, q :: r.2)

/-- `BTreeMap::remove`: returns the removed value (if any) and the new map. -/
def btreeRemove {α : Type} (k : Int) : List (Int × α) → Option α × List (Int × α)
  | [] => (none, [])
  | q :: l =>
    if k = q.1 then (some q.2, l)
    else
      let r := btreeRemove k l
      (r.1, q :: r.2)

/-- `BTreeMap::entry(k).or_insert(v)`: insert `v` only when `k` is absent. -/
def btreeOrInsert {α : Type} (k : Int) (v : α) (l : List (Int × α)) : List (Int × α) :=
  match btreeGet k l with
  | some _ => l
  | none => (btreeInsert k v l).2

/-- The container state: the window `top` (front of the `FixedVecDeque` is the
list head) and the overflow store `rest` (`lib.rs` lines 45-51). -/
structure TopMap (α : Type) where
  top : List (Option (Int × α))
  rest : List (Int × α)
deriving DecidableEq

/-- `TopMap::new` (`lib.rs` lines 58-63). -/
def TopMap.empty {α : Type} : TopMap α := ⟨[], []⟩

/-- The helper `positive` (`lib.rs` lines 66-72). -/
def positive (i : Int) : Option Nat :=
  if 0 ≤ i then some i.toNat else none

/-- The private classification enum `Index` (`lib.rs` lines 74-79). -/
inductive Index where
  | aboveTop (distance : Nat)
  | insideTop (index : Nat)
  | outsideTop (index : Nat)
  | rest
deriving DecidableEq

/-- `TopMap::index` (`lib.rs` lines 227-257).  When the window is non-empty the
source reads the front slot's key with `expect("top entry should be filled")`;
the hole case (front slot `none`) is modelled with base key `0` and is proved
unreachable from reachable states. -/
def TopMap.index {α : Type} (w : Nat) (m : TopMap α) (key : Int) : Index :=
  match m.top.head? with
  | none => Index.outsideTop 0
  | some slot =>
    let minKey : Int :=
      match slot with
      | some p => p.1
      | none => 0
    let i : Int := key - minKey
    match positive i with
    | some idx =>
      if w ≤ idx then Index.rest
      else if m.top.length ≤ idx then Index.outsideTop idx
      else Index.insideTop idx
    | none => Index.aboveTop (-i).toNat

/-- The helper `ensure_index` (`lib.rs` lines 149-160): pad the window with
empty slots until position `index` exists. -/
def ensureIndex {α : Type} (v : List (Option (Int × α))) (index : Nat) :
    List (Option (Int × α)) :=
  v ++ List.replicate (index + 1 - v.length) none

/-- The drain loop shared by `insert_above_top` and `shrink_to_fit`
(`lib.rs` lines 170-174 and 220-224): pop `count` slots from the back of the
window, moving each occupied slot's pair into the overflow store. -/
def drainBack {α : Type} : Nat → TopMap α → TopMap α
  | 0, m => m
  | count + 1, m =>
    match m.top.getLast? with
    | none => m
    | some (some q) => drainBack count ⟨m.top.dropLast, (btreeInsert q.1 q.2 m.rest).2⟩
    | some none => drainBack count ⟨m.top.dropLast, m.rest⟩

/-- `TopMap::insert_above_top` (`lib.rs` lines 167-191), composed with the
caller's write to the returned front slot: the new front slot is left as
`none` here and every caller immediately fills it. -/
def insertAboveTop {α : Type} (w : Nat) (m : TopMap α) (distance : Nat) : TopMap α :=
  if distance ≤ w then
    let newCount := w - distance
    let m1 := if newCount ≤ m.top.length then drainBack (m.top.length - newCount) m else m
    ⟨none :: (List.replicate (distance - 1) none ++ m1.top), m1.rest⟩
  else
    let m1 := drainBack m.top.length m
    ⟨none :: m1.top, m1.rest⟩

/-- The hole-popping loop in `TopMap::remove`
(`lib.rs` lines 310-312): `while let Some(None) = self.top.front() { pop }`. -/
def popHoles {α : Type} : List (Option (Int × α)) → List (Option (Int × α))
  | none :: tail => popHoles tail
  | l => l

/-- The refill loop in `TopMap::remove` (`lib.rs` lines 326-339): repeatedly
pull the minimum overflow entry into the window while its offset from
`minTopKey` is below `A::min_size() = w / 2`.  The minimum entry of the sorted
overflow list is its head, so `rest.remove(&key)` drops the head.  The source
computes the offset with `positive(...).expect(...)`; the negative-offset
branch stops the loop here and is proved unreachable from reachable states. -/
def refillLoop {α : Type} (w : Nat) (minTopKey : Int) (top : List (Option (Int × α))) :
    List (Int × α) → TopMap α
  | [] => ⟨top, []⟩
  | q :: restTail =>
    match positive (q.1 - minTopKey) with
    | none => ⟨top, q :: restTail⟩
    | some idx =>
      if w / 2 ≤ idx then ⟨top, q :: restTail⟩
      else refillLoop w minTopKey ((ensureIndex top idx).set idx (some q)) restTail

/-- The refill step of `TopMap::remove` (`lib.rs` lines 314-341), run after a
front removal when the window length has dropped to `A::min_size()` or below:
establish `min_top_key` (from the front slot, else by pulling the overflow
minimum to the back of the window), then run the refill loop. -/
def refill {α : Type} (w : Nat) (m : TopMap α) : TopMap α :=
  match m.top.head? with
  | some (some p) => refillLoop w p.1 m.top m.rest
  | _ =>
    match m.rest with
    | [] => m
    | q :: restTail => refillLoop w q.1 (m.top ++ [some q]) restTail

/-- `TopMap::get` (`lib.rs` lines 283-289). -/
def TopMap.get {α : Type} (w : Nat) (m : TopMap α) (key : Int) : Option α :=
  match m.index w key with
  | Index.aboveTop _ => none
  | Index.insideTop idx => (m.top[idx]?.bind id).map Prod.snd
  | Index.outsideTop _ => btreeGet key m.rest
  | Index.rest => btreeGet key m.rest

/-- `TopMap::get_mut` (`lib.rs` lines 291-297): same classification and lookup
as `get`; the source returns a mutable reference, modelled by its read view. -/
def TopMap.getMut {α : Type} (w : Nat) (m : TopMap α) (key : Int) : Option α :=
  match m.index w key with
  | Index.aboveTop _ => none
  | Index.insideTop idx => (m.top[idx]?.bind id).map Prod.snd
  | Index.outsideTop _ => btreeGet key m.rest
  | Index.rest => btreeGet key m.rest

/-- `TopMap::insert = TopMap::entry(key).insert(value)`
(`lib.rs` lines 100-115, 259-281, 299-301): returns the previous value and the
new state.  The `OutsideTop` arm of `entry` first consults the overflow
minimum (`lib.rs` lines 269-277); the `Entry::Vec` arm replaces the slot's
contents and returns what was there. -/
def TopMap.insert {α : Type} (w : Nat) (m : TopMap α) (key : Int) (value : α) :
    Option α × TopMap α :=
  match m.index w key with
  | Index.aboveTop distance =>
    let m1 := insertAboveTop w m distance
    (none, ⟨m1.top.set 0 (some (key, value)), m1.rest⟩)
  | Index.insideTop idx =>
    ((m.top[idx]?.bind id).map Prod.snd, ⟨m.top.set idx (some (key, value)), m.rest⟩)
  | Index.outsideTop idx =>
    match m.rest.head? with
    | some q =>
      if q.1 ≤ key then
        let r := btreeInsert key value m.rest
        (r.1, ⟨m.top, r.2⟩)
      else
        let grown := ensureIndex m.top idx
        ((grown[idx]?.bind id).map Prod.snd, ⟨grown.set idx (some (key, value)), m.rest⟩)
    | none =>
      let grown := ensureIndex m.top idx
      ((grown[idx]?.bind id).map Prod.snd, ⟨grown.set idx (some (key, value)), m.rest⟩)
  | Index.rest =>
    let r := btreeInsert key value m.rest
    (r.1, ⟨m.top, r.2⟩)

/-- `TopMap::entry(key).or_insert(default)` (`lib.rs` lines 117-126, 259-281),
state effect only: `get_or_insert` fills the bound slot when it is empty. -/
def TopMap.orInsert {α : Type} (w : Nat) (m : TopMap α) (key : Int) (default : α) :
    TopMap α :=
  match m.index w key with
  | Index.aboveTop distance =>
    let m1 := insertAboveTop w m distance
    match m1.top[0]?.bind id with
    | some _ => m1
    | none => ⟨m1.top.set 0 (some (key, default)), m1.rest⟩
  | Index.insideTop idx =>
    match m.top[idx]?.bind id with
    | some _ => m
    | none => ⟨m.top.set idx (some (key, default)), m.rest⟩
  | Index.outsideTop idx =>
    match m.rest.head? with
    | some q =>
      if q.1 ≤ key then ⟨m.top, btreeOrInsert key default m.rest⟩
      else
        let grown := ensureIndex m.top idx
        match grown[idx]?.bind id with
        | some _ => ⟨grown, m.rest⟩
        | none => ⟨grown.set idx (some (key, default)), m.rest⟩
    | none =>
      let grown := ensureIndex m.top idx
      match grown[idx]?.bind id with
      | some _ => ⟨grown, m.rest⟩
      | none => ⟨grown.set idx (some (key, default)), m.rest⟩
  | Index.rest => ⟨m.top, btreeOrInsert key default m.rest⟩

/-- `TopMap::remove` (`lib.rs` lines 303-353).  In the front-removal arm the
source pops the front slot with `pop_front().unwrap()` and then applies `?` to
its contents, so a front hole would be popped before the early `none` return;
the `InsideTop 0` arm with an empty window is modelled as a no-op and proved
unreachable (`InsideTop` requires a non-empty window). -/
def TopMap.remove {α : Type} (w : Nat) (m : TopMap α) (key : Int) :
    Option α × TopMap α :=
  match m.index w key with
  | Index.aboveTop _ => (none, m)
  | Index.insideTop 0 =>
    match m.top with
    | [] => (none, m)
    | slot :: tail =>
      match slot with
      | none => (none, ⟨tail, m.rest⟩)
      | some p =>
        let m2 : TopMap α := ⟨popHoles tail, m.rest⟩
        if m2.top.length ≤ w / 2 then (some p.2, refill w m2)
        else (some p.2, m2)
  | Index.insideTop (idx + 1) =>
    ((m.top[idx + 1]?.bind id).map Prod.snd, ⟨m.top.set (idx + 1) none, m.rest⟩)
  | Index.outsideTop _ =>
    let r := btreeRemove key m.rest
    (r.1, ⟨m.top, r.2⟩)
  | Index.rest =>
    let r := btreeRemove key m.rest
    (r.1, ⟨m.top, r.2⟩)

/-- `TopMap::shrink_to_fit` (`lib.rs` lines 219-225): pop back slots into the
overflow store while the window is longer than `A::min_size() = w / 2`; the
loop body is exactly the shared drain loop run `length - w / 2` times. -/
def TopMap.shrinkToFit {α : Type} (w : Nat) (m : TopMap α) : TopMap α :=
  drainBack (m.top.length - w / 2) m

/-- `TopMap::len` (`lib.rs` lines 144-147). -/
def TopMap.len {α : Type} (m : TopMap α) : Nat :=
  (m.top.filter (fun slot => slot.isSome)).length + m.rest.length

/-- `TopMap::clear` (`lib.rs` lines 214-217). -/
def TopMap.clear {α : Type} (_ : TopMap α) : TopMap α := ⟨[], []⟩

/-- The sequence produced by `TopMap::iter` (`lib.rs` lines 200-205): the
window's occupied slots in position order followed by the overflow entries in
key order. -/
def TopMap.iter {α : Type} (m : TopMap α) : List (Int × α) :=
  m.top.filterMap id ++ m.rest

/-- One step of the differential test driver (`lib.rs` lines 629-671):
an insert, remove or get action with integer keys. -/
inductive Act (α : Type) where
  | insert (key : Int) (value : α)
  | remove (key : Int)
  | get (key : Int)

/-- Apply one action to the container, returning the observed value. -/
def TopMap.stepAct {α : Type} (w : Nat) (m : TopMap α) : Act α → Option α × TopMap α
  | Act.insert k v => m.insert w k v
  | Act.remove k => m.remove w k
  | Act.get k => (m.get w k, m)

/-- Apply one action to the reference ordered map. -/
def btreeStepAct {α : Type} (l : List (Int × α)) : Act α → Option α × List (Int × α)
  | Act.insert k v => btreeInsert k v l
  | Act.remove k => btreeRemove k l
  | Act.get k => (btreeGet k l, l)

/-- Replay a sequence of actions on the container, recording every return
value. -/
def TopMap.runActs {α : Type} (w : Nat) (m : TopMap α) : List (Act α) → List (Option α)
  | [] => []
  | a :: acts =>
    let r := m.stepAct w a
    r.1 :: TopMap.runActs w r.2 acts

/-- Replay a sequence of actions on the reference ordered map, recording every
return value. -/
def btreeRunActs {α : Type} (l : List (Int × α)) : List (Act α) → List (Option α)
  | [] => []
  | a :: acts =>
    let r := btreeStepAct l a
    r.1 :: btreeRunActs r.2 acts

/-- States reachable from the empty container by the public mutating
operations. -/
inductive Reachable {α : Type} (w : Nat) : TopMap α → Prop where
  | empty : Reachable w TopMap.empty
  | insert {m : TopMap α} (k : Int) (v : α) (h : Reachable w m) :
      Reachable w (m.insert w k v).2
  | remove {m : TopMap α} (k : Int) (h : Reachable w m) :
      Reachable w (m.remove w k).2
  | orInsert {m : TopMap α} (k : Int) (v : α) (h : Reachable w m) :
      Reachable w (m.orInsert w k v)
  | shrinkToFit {m : TopMap α} (h : Reachable w m) :
      Reachable w (m.shrinkToFit w)
  | clear {m : TopMap α} (h : Reachable w m) :
      Reachable w (m.clear)

/-- Strictly increasing keys. -/
def sortedKeys {α : Type} (l : List (Int × α)) : Prop :=
  l.Pairwise (fun p q => p.1 < q.1)

/-- Window well-formedness relative to a base key `b`: every occupied slot at
position `i` holds the key `b + i`. -/
def SlotKeys {α : Type} (b : Int) (top : List (Option (Int × α))) : Prop :=
  ∀ (i : Nat) (p : Int × α), top[i]? = some (some p) → p.1 = b + i

/-- The state invariant: the overflow list is sorted, the window respects the
capacity, and when the window is non-empty its front slot is occupied, slot
positions encode keys, and every overflow key lies at or beyond the window's
end. -/
def Inv {α : Type} (w : Nat) (m : TopMap α) : Prop :=
  sortedKeys m.rest ∧ m.top.length ≤ w ∧
    (m.top = [] ∨
      ∃ p, m.top.head? = some (some p) ∧ SlotKeys p.1 m.top ∧
        ∀ q ∈ m.rest, p.1 + m.top.length ≤ q.1)

/-- Replay a list of insertions (`Extend::extend`, `lib.rs` lines 382-393). -/
def TopMap.insertAll {α : Type} (w : Nat) (m : TopMap α) (l : List (Int × α)) : TopMap α :=
  l.foldl (fun m q => (m.insert w q.1 q.2).2) m

/-- Width-10 trace exercising the refill stop condition: insert keys
0, 15, 16, 20 and 21, then remove the front key 0. -/
def refillStopTrace : Option Int × TopMap Int :=
  ((TopMap.empty.insertAll 10 [(0, 0), (15, 15), (16, 16), (20, 20), (21, 21)])).remove 10 0

/-- Width-10 trace exercising the `OutsideTop` lookup: insert keys 0 through
10, then remove the front key 0, leaving key 10 in overflow at offset 9. -/
def outsideLookupTrace : TopMap Int :=
  ((TopMap.empty.insertAll 10
    [(0, 0), (1, 1), (2, 2), (3, 3), (4, 4), (5, 5), (6, 6), (7, 7), (8, 8), (9, 9),
      (10, 10)])).remove 10 0 |>.2

/-- The six sample items of the width-10 scenario in the spec and the tests. -/
def sampleItems : List (Int × String) :=
  [(100, "a1"), (101, "a2"), (200, "b1"), (201, "b2"), (300, "c1"), (301, "c2")]

/-- The width-10 sample map holding the six sample items. -/
def sampleMap : TopMap String := TopMap.empty.insertAll 10 sampleItems

/-- The sample map after `remove(100)`, with the removed value. -/
def sampleRemove1 : Option String × TopMap String := sampleMap.remove 10 100

/-- The sample map after `remove(100)` and `remove(101)`, with the second
removed value. -/
def sampleRemove2 : Option String × TopMap String := sampleRemove1.2.remove 10 101

section BtreeLemmas

variable {α : Type}

theorem sortedKeys_cons {q : Int × α} {t : List (Int × α)} :
    sortedKeys (q :: t) ↔ (∀ r ∈ t, q.1 < r.1) ∧ sortedKeys t := by
  simp [sortedKeys, List.pairwise_cons]

theorem btreeGet_eq_none {k : Int} {l : List (Int × α)} (h : ∀ q ∈ l, q.1 ≠ k) :
    btreeGet k l = none := by
  induction l with
  | nil => rfl
  | cons q t ih =>
    rw [btreeGet, if_neg, ih]
    · exact fun r hr => h r (List.mem_cons_of_mem _ hr)
    · exact fun hk => h q (List.mem_cons_self _ _) hk.symm

theorem btreeGet_append {k : Int} {l₁ l₂ : List (Int × α)} :
    btreeGet k (l₁ ++ l₂) =
      match btreeGet k l₁ with
      | some v => some v
      | none => btreeGet k l₂ := by
  induction l₁ with
  | nil => rfl
  | cons q t ih =>
    by_cases h : k = q.1
    · simp [btreeGet, h]
    · simp [btreeGet, h, ih]

theorem mem_btreeInsert {k : Int} {v : α} {l : List (Int × α)} {q : Int × α}
    (h : q ∈ (btreeInsert k v l).2) : q = (k, v) ∨ q ∈ l := by
  induction l with
  | nil =>
    simp only [btreeInsert, List.mem_singleton] at h
    exact Or.inl h
  | cons p t ih =>
    by_cases h1 : k < p.1
    · simp only [btreeInsert, if_pos h1, List.mem_cons] at h
      rcases h with h | h | h
      · exact Or.inl h
      · exact Or.inr (by simp [h])
      · exact Or.inr (List.mem_cons_of_mem _ h)
    · by_cases h2 : k = p.1
      · simp only [btreeInsert, if_neg h1, if_pos h2, List.mem_cons] at h
        rcases h with h | h
        · exact Or.inl h
        · exact Or.inr (List.mem_cons_of_mem _ h)
      · simp only [btreeInsert, if_neg h1, if_neg h2, List.mem_cons] at h
        rcases h with h | h
        · exact Or.inr (by simp [h])
        · rcases ih h with h | h
          · exact Or.inl h
          · exact Or.inr (List.mem_cons_of_mem _ h)

theorem btreeInsert_of_lt {k : Int} {v : α} {l : List (Int × α)}
    (h : ∀ q ∈ l, k < q.1) : btreeInsert k v l = (none, (k, v) :: l) := by
  cases l with
  | nil => rfl
  | cons q t => rw [btreeInsert, if_pos (h q (List.mem_cons_self _ _))]

theorem btreeInsert_of_gt {k : Int} {v : α} {l : List (Int × α)}
    (h : ∀ q ∈ l, q.1 < k) : btreeInsert k v l = (none, l ++ [(k, v)]) := by
  induction l with
  | nil => rfl
  | cons q t ih =>
    have hq := h q (List.mem_cons_self _ _)
    have ht : ∀ r ∈ t, r.1 < k := fun r hr => h r (List.mem_cons_of_mem _ hr)
    rw [btreeInsert, if_neg (by omega), if_neg (by omega)]
    simp [ih ht]

theorem btreeInsert_append_lt {k : Int} {v : α} {l₁ l₂ : List (Int × α)}
    (h : ∀ q ∈ l₂, k < q.1) :
    btreeInsert k v (l₁ ++ l₂) = ((btreeInsert k v l₁).1, (btreeInsert k v l₁).2 ++ l₂) := by
  induction l₁ with
  | nil =>
    rw [List.nil_append, btreeInsert_of_lt h]
    rfl
  | cons q t ih =>
    by_cases h1 : k < q.1
    · simp [btreeInsert, h1]
    · by_cases h2 : k = q.1
      · simp [btreeInsert, h1, h2]
      · simp [btreeInsert, h1, h2, ih]

theorem btreeInsert_append_gt {k : Int} {v : α} {l₁ l₂ : List (Int × α)}
    (h : ∀ q ∈ l₁, q.1 < k) :
    btreeInsert k v (l₁ ++ l₂) = ((btreeInsert k v l₂).1, l₁ ++ (btreeInsert k v l₂).2) := by
  induction l₁ with
  | nil => simp
  | cons q t ih =>
    have hq := h q (List.mem_cons_self _ _)
    have ht : ∀ r ∈ t, r.1 < k := fun r hr => h r (List.mem_cons_of_mem _ hr)
    rw [List.cons_append, btreeInsert, if_neg (by omega), if_neg (by omega)]
    simp [ih ht]

theorem btreeInsert_fst {k : Int} {v : α} {l : List (Int × α)} (hs : sortedKeys l) :
    (btreeInsert k v l).1 = btreeGet k l := by
  induction l with
  | nil => rfl
  | cons q t ih =>
    rcases sortedKeys_cons.1 hs with ⟨hq, ht⟩
    by_cases h1 : k < q.1
    · rw [btreeInsert, if_pos h1, btreeGet, if_neg (by omega)]
      rw [btreeGet_eq_none (fun r hr => by have := hq r hr; omega)]
    · by_cases h2 : k = q.1
      · rw [btreeInsert, if_neg h1, if_pos h2, btreeGet, if_pos h2]
      · rw [btreeInsert, if_neg h1, if_neg h2, btreeGet, if_neg h2]
        exact ih ht

theorem btreeInsert_sorted {k : Int} {v : α} {l : List (Int × α)} (hs : sortedKeys l) :
    sortedKeys (btreeInsert k v l).2 := by
  induction l with
  | nil => simp [btreeInsert, sortedKeys]
  | cons q t ih =>
    rcases sortedKeys_cons.1 hs with ⟨hq, ht⟩
    by_cases h1 : k < q.1
    · rw [btreeInsert, if_pos h1]
      refine sortedKeys_cons.2 ⟨?_, hs⟩
      intro r hr
      rcases List.mem_cons.1 hr with h | h
      · simp [h, h1]
      · have := hq r h; omega
    · by_cases h2 : k = q.1
      · rw [btreeInsert, if_neg h1, if_pos h2]
        exact sortedKeys_cons.2 ⟨fun r hr => by have := hq r hr; omega, ht⟩
      · rw [btreeInsert, if_neg h1, if_neg h2]
        refine sortedKeys_cons.2 ⟨?_, ih ht⟩
        intro r hr
        rcases mem_btreeInsert hr with h | h
        · simp [h]; omega
        · exact hq r h

theorem mem_btreeRemove {k : Int} {l : List (Int × α)} {q : Int × α}
    (h : q ∈ (btreeRemove k l).2) : q ∈ l := by
  induction l with
  | nil => simp [btreeRemove] at h
  | cons p t ih =>
    by_cases h1 : k = p.1
    · rw [btreeRemove, if_pos h1] at h
      exact List.mem_cons_of_mem _ h
    · rw [btreeRemove, if_neg h1] at h
      rcases List.mem_cons.1 h with h | h
      · simp [h]
      · exact List.mem_cons_of_mem _ (ih h)

theorem btreeRemove_fst {k : Int} {l : List (Int × α)} :
    (btreeRemove k l).1 = btreeGet k l := by
  induction l with
  | nil => rfl
  | cons q t ih =>
    by_cases h1 : k = q.1
    · rw [btreeRemove, if_pos h1, btreeGet, if_pos h1]
    · rw [btreeRemove, if_neg h1, btreeGet, if_neg h1]
      exact ih

theorem btreeRemove_sorted {k : Int} {l : List (Int × α)} (hs : sortedKeys l) :
    sortedKeys (btreeRemove k l).2 := by
  induction l with
  | nil => simpa [btreeRemove] using hs
  | cons q t ih =>
    rcases sortedKeys_cons.1 hs with ⟨hq, ht⟩
    by_cases h1 : k = q.1
    · rw [btreeRemove, if_pos h1]
      exact ht
    · rw [btreeRemove, if_neg h1]
      exact sortedKeys_cons.2 ⟨fun r hr => hq r (mem_btreeRemove hr), ih ht⟩

theorem btreeRemove_of_get_none {k : Int} {l : List (Int × α)}
    (h : btreeGet k l = none) : btreeRemove k l = (none, l) := by
  induction l with
  | nil => rfl
  | cons q t ih =>
    by_cases h1 : k = q.1
    · rw [btreeGet, if_pos h1] at h
      exact absurd h (by simp)
    · rw [btreeGet, if_neg h1] at h
      rw [btreeRemove, if_neg h1]
      simp [ih h]

theorem btreeRemove_append_of_ne {k : Int} {l₁ l₂ : List (Int × α)}
    (h : ∀ q ∈ l₁, q.1 ≠ k) :
    btreeRemove k (l₁ ++ l₂) = ((btreeRemove k l₂).1, l₁ ++ (btreeRemove k l₂).2) := by
  induction l₁ with
  | nil => simp
  | cons q t ih =>
    rw [List.cons_append, btreeRemove,
      if_neg (fun hk => h q (List.mem_cons_self _ _) hk.symm)]
    simp [ih (fun r hr => h r (List.mem_cons_of_mem _ hr))]

theorem btreeRemove_append_lt {k : Int} {l₁ l₂ : List (Int × α)}
    (h : ∀ q ∈ l₂, k < q.1) :
    btreeRemove k (l₁ ++ l₂) = ((btreeRemove k l₁).1, (btreeRemove k l₁).2 ++ l₂) := by
  induction l₁ with
  | nil =>
    have : btreeGet k l₂ = none := btreeGet_eq_none (fun q hq => by have := h q hq; omega)
    simpa using btreeRemove_of_get_none this
  | cons q t ih =>
    by_cases h1 : k = q.1
    · simp [btreeRemove, h1]
    · simp [btreeRemove, h1, ih]

end BtreeLemmas

section WindowLemmas

variable {α : Type}

theorem SlotKeys_nil {b : Int} : SlotKeys b ([] : List (Option (Int × α))) := by
  intro i p h
  simp at h

theorem SlotKeys_cons {b : Int} {s : Option (Int × α)} {t : List (Option (Int × α))} :
    SlotKeys b (s :: t) ↔ (∀ p, s = some p → p.1 = b) ∧ SlotKeys (b + 1) t := by
  constructor
  · intro h
    refine ⟨fun p hp => by simpa using h 0 p (by simp [hp]), fun i p hp => ?_⟩
    have := h (i + 1) p (by simpa using hp)
    push_cast at this ⊢
    omega
  · rintro ⟨h0, ht⟩ i p hp
    cases i with
    | zero =>
      simp only [List.getElem?_cons_zero, Option.some.injEq] at hp
      simpa using h0 p hp
    | succ i =>
      simp only [List.getElem?_cons_succ] at hp
      have := ht i p hp
      push_cast at this ⊢
      omega

theorem SlotKeys_congr {b b' : Int} {t : List (Option (Int × α))} (hb : b = b')
    (h : SlotKeys b t) : SlotKeys b' t := hb ▸ h

theorem SlotKeys_replicate {b : Int} {n : Nat} :
    SlotKeys b (List.replicate n (none : Option (Int × α))) := by
  induction n generalizing b with
  | zero => exact SlotKeys_nil
  | succ n ih =>
    rw [List.replicate_succ]
    exact SlotKeys_cons.2 ⟨by simp, ih⟩

theorem SlotKeys_append_replicate {b : Int} {t : List (Option (Int × α))} {n : Nat}
    (h : SlotKeys b t) : SlotKeys b (t ++ List.replicate n none) := by
  induction t generalizing b with
  | nil => simpa using SlotKeys_replicate
  | cons s t ih =>
    rcases SlotKeys_cons.1 h with ⟨h0, ht⟩
    exact SlotKeys_cons.2 ⟨h0, ih ht⟩

theorem SlotKeys_replicate_append {b : Int} {t : List (Option (Int × α))} {n : Nat}
    (h : SlotKeys (b + n) t) : SlotKeys b (List.replicate n none ++ t) := by
  induction n generalizing b with
  | zero => simpa using SlotKeys_congr (by push_cast; ring) h
  | succ n ih =>
    rw [List.replicate_succ, List.cons_append]
    refine SlotKeys_cons.2 ⟨by simp, ih (SlotKeys_congr (by push_cast; ring) h)⟩

theorem SlotKeys_take {b : Int} {t : List (Option (Int × α))} (h : SlotKeys b t)
    (n : Nat) : SlotKeys b (t.take n) := by
  induction t generalizing b n with
  | nil => simpa using SlotKeys_nil
  | cons s t ih =>
    cases n with
    | zero => exact SlotKeys_nil
    | succ n =>
      rcases SlotKeys_cons.1 h with ⟨h0, ht⟩
      rw [List.take_succ_cons]
      exact SlotKeys_cons.2 ⟨h0, ih ht n⟩

theorem SlotKeys_dropLast {b : Int} {t : List (Option (Int × α))} (h : SlotKeys b t) :
    SlotKeys b t.dropLast := by
  rw [List.dropLast_eq_take]
  exact SlotKeys_take h _

theorem SlotKeys_set {b : Int} {t : List (Option (Int × α))} (h : SlotKeys b t)
    (i : Nat) (q : Int × α) (hq : q.1 = b + i) : SlotKeys b (t.set i (some q)) := by
  induction t generalizing b i with
  | nil => simpa using h
  | cons s t ih =>
    cases i with
    | zero =>
      rw [List.set_cons_zero]
      refine SlotKeys_cons.2 ⟨fun p hp => ?_, (SlotKeys_cons.1 h).2⟩
      cases hp
      simpa using hq
    | succ i =>
      rw [List.set_cons_succ]
      refine SlotKeys_cons.2 ⟨(SlotKeys_cons.1 h).1, ?_⟩
      refine ih (SlotKeys_cons.1 h).2 i ?_
      push_cast at hq ⊢
      omega

theorem SlotKeys_set_none {b : Int} {t : List (Option (Int × α))} (h : SlotKeys b t)
    (i : Nat) : SlotKeys b (t.set i none) := by
  induction t generalizing b i with
  | nil => simpa using h
  | cons s t ih =>
    cases i with
    | zero =>
      rw [List.set_cons_zero]
      exact SlotKeys_cons.2 ⟨by simp, (SlotKeys_cons.1 h).2⟩
    | succ i =>
      rw [List.set_cons_succ]
      exact SlotKeys_cons.2 ⟨(SlotKeys_cons.1 h).1, ih (SlotKeys_cons.1 h).2 i⟩

theorem mem_occ_bounds {b : Int} {t : List (Option (Int × α))} (h : SlotKeys b t)
    {q : Int × α} (hq : q ∈ t.filterMap id) : b ≤ q.1 ∧ q.1 < b + t.length := by
  induction t generalizing b with
  | nil => simp at hq
  | cons s t ih =>
    rcases SlotKeys_cons.1 h with ⟨h0, ht⟩
    cases s with
    | none =>
      simp only [List.filterMap_cons, id] at hq
      have := ih ht hq
      simp only [List.length_cons]
      push_cast
      omega
    | some p =>
      simp only [List.filterMap_cons, id] at hq
      rcases List.mem_cons.1 hq with hqp | hq
      · have : q.1 = b := by rw [hqp]; exact h0 p rfl
        simp only [List.length_cons]
        push_cast
        omega
      · have := ih ht hq
        simp only [List.length_cons]
        push_cast
        omega

theorem occ_sorted {b : Int} {t : List (Option (Int × α))} (h : SlotKeys b t) :
    sortedKeys (t.filterMap id) := by
  induction t generalizing b with
  | nil => simp [sortedKeys]
  | cons s t ih =>
    rcases SlotKeys_cons.1 h with ⟨h0, ht⟩
    cases s with
    | none => simpa using ih ht
    | some p =>
      simp only [List.filterMap_cons, id]
      refine sortedKeys_cons.2 ⟨fun r hr => ?_, ih ht⟩
      have := (mem_occ_bounds ht hr).1
      have := h0 p rfl
      omega

end WindowLemmas

section EnsureIndexLemmas

variable {α : Type}

theorem ensureIndex_nil {i : Nat} :
    ensureIndex ([] : List (Option (Int × α))) i = List.replicate (i + 1) none := by
  simp [ensureIndex]

theorem ensureIndex_cons {s : Option (Int × α)} {t : List (Option (Int × α))} {i : Nat} :
    ensureIndex (s :: t) (i + 1) = s :: ensureIndex t i := by
  simp [ensureIndex, Nat.succ_sub_succ]

theorem ensureIndex_length {t : List (Option (Int × α))} {i : Nat} :
    (ensureIndex t i).length = max t.length (i + 1) := by
  simp only [ensureIndex, List.length_append, List.length_replicate]
  omega

theorem ensureIndex_of_lt {t : List (Option (Int × α))} {i : Nat} (h : i < t.length) :
    ensureIndex t i = t := by
  simp only [ensureIndex]
  rw [Nat.sub_eq_zero_of_le (by omega)]
  simp

theorem SlotKeys_ensureIndex {b : Int} {t : List (Option (Int × α))} (h : SlotKeys b t)
    (i : Nat) : SlotKeys b (ensureIndex t i) :=
  SlotKeys_append_replicate h

theorem occ_replicate {n : Nat} :
    (List.replicate n (none : Option (Int × α))).filterMap id = [] := by
  induction n with
  | zero => rfl
  | succ n ih => simp [List.replicate_succ, ih]

theorem occ_ensureIndex {t : List (Option (Int × α))} {i : Nat} :
    (ensureIndex t i).filterMap id = t.filterMap id := by
  simp [ensureIndex, List.filterMap_append, occ_replicate]

theorem occ_replicate_set {n i : Nat} (h : i < n) (q : Int × α) :
    ((List.replicate n (none : Option (Int × α))).set i (some q)).filterMap id = [q] := by
  induction n generalizing i with
  | zero => omega
  | succ n ih =>
    cases i with
    | zero => simp [List.replicate_succ, occ_replicate]
    | succ i =>
      rw [List.replicate_succ, List.set_cons_succ]
      simpa using ih (by omega)

theorem occ_ensureIndex_set {t : List (Option (Int × α))} {i : Nat} (h : t.length ≤ i)
    (q : Int × α) :
    ((ensureIndex t i).set i (some q)).filterMap id = t.filterMap id ++ [q] := by
  induction t generalizing i with
  | nil =>
    rw [ensureIndex_nil, occ_replicate_set (by omega)]
    simp
  | cons s t ih =>
    cases i with
    | zero => simp at h
    | succ i =>
      rw [ensureIndex_cons, List.set_cons_succ]
      cases s with
      | none => simpa using ih (by simpa using h)
      | some p => simpa using ih (by simpa using h)

theorem ensureIndex_getElem?_bind {t : List (Option (Int × α))} {i : Nat}
    (h : t.length ≤ i) : (ensureIndex t i)[i]?.bind id = none := by
  induction t generalizing i with
  | nil =>
    rw [ensureIndex_nil, List.getElem?_replicate, if_pos (by omega)]
    rfl
  | cons s t ih =>
    cases i with
    | zero => simp at h
    | succ i =>
      rw [ensureIndex_cons, List.getElem?_cons_succ]
      exact ih (by simpa using h)

theorem head?_ensureIndex {t : List (Option (Int × α))} {i : Nat} (h : t ≠ []) :
    (ensureIndex t i).head? = t.head? := by
  cases t with
  | nil => exact absurd rfl h
  | cons s t => simp [ensureIndex]

theorem head?_set {t : List (Option (Int × α))} {i : Nat} (h : 1 ≤ i)
    (x : Option (Int × α)) : (t.set i x).head? = t.head? := by
  cases t with
  | nil => simp
  | cons s t =>
    cases i with
    | zero => omega
    | succ i => rw [List.set_cons_succ, List.head?_cons, List.head?_cons]

end EnsureIndexLemmas

section SlotBtreeLemmas

variable {α : Type}

theorem btreeInsert_occ {b : Int} {t : List (Option (Int × α))} (h : SlotKeys b t)
    {i : Nat} (hi : i < t.length) (v : α) :
    btreeInsert (b + i) v (t.filterMap id) =
      ((t[i]?.bind id).map Prod.snd, (t.set i (some (b + i, v))).filterMap id) := by
  induction t generalizing b i with
  | nil => simp at hi
  | cons s t ih =>
    rcases SlotKeys_cons.1 h with ⟨h0, ht⟩
    cases i with
    | zero =>
      cases s with
      | none =>
        have hlt : ∀ q ∈ t.filterMap id, b < q.1 := by
          intro q hq
          have := (mem_occ_bounds ht hq).1
          omega
        rw [List.filterMap_cons]
        simpa using btreeInsert_of_lt hlt
      | some p =>
        have hp : p.1 = b := h0 p rfl
        rw [List.filterMap_cons]
        simp only [id, List.set_cons_zero, List.getElem?_cons_zero, Option.bind_some]
        rw [btreeInsert, if_neg (by push_cast; omega), if_pos (by push_cast; omega)]
        simp
    | succ i =>
      have hne : b + (i + 1 : Nat) ≠ b := by push_cast; omega
      have harith : (b + 1) + (i : Int) = b + ((i + 1 : Nat) : Int) := by push_cast; ring
      cases s with
      | none =>
        rw [List.filterMap_cons]
        simp only [id, List.set_cons_succ, List.getElem?_cons_succ]
        rw [← harith]
        exact ih ht (by simpa using hi)
      | some p =>
        have hp : p.1 = b := h0 p rfl
        rw [List.filterMap_cons]
        simp only [id, List.set_cons_succ, List.getElem?_cons_succ]
        rw [btreeInsert, if_neg (by push_cast; omega), if_neg (by push_cast; omega)]
        have hrec := ih ht (show i < t.length by simpa using hi)
        rw [harith] at hrec
        rw [hrec]
        simp [List.filterMap_cons]

theorem btreeRemove_occ {b : Int} {t : List (Option (Int × α))} (h : SlotKeys b t)
    {i : Nat} (hi : i < t.length) :
    btreeRemove (b + i) (t.filterMap id) =
      ((t[i]?.bind id).map Prod.snd, (t.set i none).filterMap id) := by
  induction t generalizing b i with
  | nil => simp at hi
  | cons s t ih =>
    rcases SlotKeys_cons.1 h with ⟨h0, ht⟩
    cases i with
    | zero =>
      cases s with
      | none =>
        have hne : ∀ q ∈ t.filterMap id, q.1 ≠ b := by
          intro q hq
          have := (mem_occ_bounds ht hq).1
          omega
        rw [List.filterMap_cons]
        simpa using btreeRemove_of_get_none (btreeGet_eq_none hne)
      | some p =>
        have hp : p.1 = b := h0 p rfl
        rw [List.filterMap_cons]
        simp only [id, List.set_cons_zero, List.getElem?_cons_zero, Option.bind_some]
        rw [btreeRemove, if_pos (by push_cast; omega)]
        simp
    | succ i =>
      have harith : (b + 1) + (i : Int) = b + ((i + 1 : Nat) : Int) := by push_cast; ring
      cases s with
      | none =>
        rw [List.filterMap_cons]
        simp only [id, List.set_cons_succ, List.getElem?_cons_succ]
        rw [← harith]
        exact ih ht (by simpa using hi)
      | some p =>
        have hp : p.1 = b := h0 p rfl
        rw [List.filterMap_cons]
        simp only [id, List.set_cons_succ, List.getElem?_cons_succ]
        rw [btreeRemove, if_neg (by push_cast; omega)]
        have hrec := ih ht (show i < t.length by simpa using hi)
        rw [harith] at hrec
        rw [hrec]
        simp [List.filterMap_cons]

theorem btreeGet_occ {b : Int} {t : List (Option (Int × α))} (h : SlotKeys b t)
    {i : Nat} (hi : i < t.length) :
    btreeGet (b + i) (t.filterMap id) = (t[i]?.bind id).map Prod.snd := by
  have := btreeRemove_occ h hi
  rw [← btreeRemove_fst, this]

end SlotBtreeLemmas

section PopHolesLemmas

variable {α : Type}

theorem popHoles_nil : popHoles ([] : List (Option (Int × α))) = [] := rfl

theorem popHoles_cons_some {p : Int × α} {t : List (Option (Int × α))} :
    popHoles (some p :: t) = some p :: t := rfl

theorem popHoles_cons_none {t : List (Option (Int × α))} :
    popHoles (none :: t) = popHoles t := rfl

theorem occ_popHoles {t : List (Option (Int × α))} :
    (popHoles t).filterMap id = t.filterMap id := by
  induction t with
  | nil => rfl
  | cons s t ih =>
    cases s with
    | none => rw [popHoles_cons_none, ih]; simp
    | some p => rfl

theorem popHoles_length_le {t : List (Option (Int × α))} :
    (popHoles t).length ≤ t.length := by
  induction t with
  | nil => exact le_rfl
  | cons s t ih =>
    cases s with
    | none =>
      rw [popHoles_cons_none]
      exact le_trans ih (by simp)
    | some p => exact le_rfl

theorem popHoles_cases {b : Int} {t : List (Option (Int × α))} (h : SlotKeys b t) :
    popHoles t = [] ∨
      ∃ p t₂, popHoles t = some p :: t₂ ∧ SlotKeys p.1 (popHoles t) ∧
        p.1 + ((popHoles t).length : Int) = b + t.length ∧ b ≤ p.1 := by
  induction t generalizing b with
  | nil => exact Or.inl rfl
  | cons s t ih =>
    rcases SlotKeys_cons.1 h with ⟨h0, ht⟩
    cases s with
    | some p =>
      right
      refine ⟨p, t, rfl, SlotKeys_congr (h0 p rfl).symm h, ?_, le_of_eq (h0 p rfl).symm⟩
      rw [popHoles_cons_some, h0 p rfl]
    | none =>
      rw [popHoles_cons_none]
      rcases ih ht with h2 | ⟨p, t₂, he, hsk, hlen, hble⟩
      · exact Or.inl h2
      · refine Or.inr ⟨p, t₂, he, hsk, ?_, by omega⟩
        simp only [List.length_cons]
        push_cast at hlen ⊢
        omega

end PopHolesLemmas

section IndexLemmas

variable {α : Type}

theorem index_of_empty {w : Nat} {m : TopMap α} (h : m.top = []) (key : Int) :
    m.index w key = Index.outsideTop 0 := by
  rw [TopMap.index, h]
  rfl

theorem index_spec {w : Nat} {m : TopMap α} {p : Int × α} (hh : m.top.head? = some (some p))
    (key : Int) :
    (key < p.1 ∧ m.index w key = Index.aboveTop (p.1 - key).toNat) ∨
    (p.1 ≤ key ∧ key < p.1 + w ∧ key < p.1 + m.top.length ∧
      m.index w key = Index.insideTop (key - p.1).toNat) ∨
    (p.1 ≤ key ∧ key < p.1 + w ∧ p.1 + m.top.length ≤ key ∧
      m.index w key = Index.outsideTop (key - p.1).toNat) ∨
    (p.1 + (w : Int) ≤ key ∧ m.index w key = Index.rest) := by
  rw [TopMap.index, hh]
  simp only [positive]
  rcases lt_or_le key p.1 with h1 | h1
  · left
    refine ⟨h1, ?_⟩
    rw [if_neg (by omega), neg_sub]
  · rcases lt_or_le (key - p.1) (w : Int) with h2 | h2
    · rcases lt_or_le (key - p.1) ((m.top.length : Nat) : Int) with h3 | h3
      · right; left
        refine ⟨h1, by omega, by omega, ?_⟩
        rw [if_pos (by omega)]
        show (if w ≤ (key - p.1).toNat then Index.rest
          else if m.top.length ≤ (key - p.1).toNat then Index.outsideTop (key - p.1).toNat
          else Index.insideTop (key - p.1).toNat) = Index.insideTop (key - p.1).toNat
        rw [if_neg (by omega), if_neg (by omega)]
      · right; right; left
        refine ⟨h1, by omega, by omega, ?_⟩
        rw [if_pos (by omega)]
        show (if w ≤ (key - p.1).toNat then Index.rest
          else if m.top.length ≤ (key - p.1).toNat then Index.outsideTop (key - p.1).toNat
          else Index.insideTop (key - p.1).toNat) = Index.outsideTop (key - p.1).toNat
        rw [if_neg (by omega), if_pos (by omega)]
    · right; right; right
      refine ⟨by omega, ?_⟩
      rw [if_pos (by omega)]
      show (if w ≤ (key - p.1).toNat then Index.rest
        else if m.top.length ≤ (key - p.1).toNat then Index.outsideTop (key - p.1).toNat
        else Index.insideTop (key - p.1).toNat) = Index.rest
      rw [if_pos (by omega)]

theorem index_aboveTop_facts {w : Nat} {m : TopMap α} {p : Int × α}
    (hh : m.top.head? = some (some p)) {key : Int} {d : Nat}
    (h : m.index w key = Index.aboveTop d) : key < p.1 ∧ (d : Int) = p.1 - key := by
  rcases index_spec (w := w) hh key with ⟨h1, h2⟩ | ⟨h1, h2, h3, h4⟩ | ⟨h1, h2, h3, h4⟩ |
    ⟨h1, h2⟩
  · rw [h] at h2
    have := Index.aboveTop.injEq _ _ ▸ h2
    refine ⟨h1, ?_⟩
    simp only [Index.aboveTop.injEq] at h2
    omega
  · rw [h] at h4; simp at h4
  · rw [h] at h4; simp at h4
  · rw [h] at h2; simp at h2

theorem index_insideTop_facts {w : Nat} {m : TopMap α} {p : Int × α}
    (hh : m.top.head? = some (some p)) {key : Int} {i : Nat}
    (h : m.index w key = Index.insideTop i) :
    key = p.1 + i ∧ i < m.top.length ∧ i < w := by
  rcases index_spec (w := w) hh key with ⟨h1, h2⟩ | ⟨h1, h2, h3, h4⟩ | ⟨h1, h2, h3, h4⟩ |
    ⟨h1, h2⟩
  · rw [h] at h2; simp at h2
  · rw [h] at h4
    simp only [Index.insideTop.injEq] at h4
    omega
  · rw [h] at h4; simp at h4
  · rw [h] at h2; simp at h2

theorem index_outsideTop_facts {w : Nat} {m : TopMap α} {p : Int × α}
    (hh : m.top.head? = some (some p)) {key : Int} {i : Nat}
    (h : m.index w key = Index.outsideTop i) :
    key = p.1 + i ∧ m.top.length ≤ i ∧ i < w := by
  rcases index_spec (w := w) hh key with ⟨h1, h2⟩ | ⟨h1, h2, h3, h4⟩ | ⟨h1, h2, h3, h4⟩ |
    ⟨h1, h2⟩
  · rw [h] at h2; simp at h2
  · rw [h] at h4; simp at h4
  · rw [h] at h4
    simp only [Index.outsideTop.injEq] at h4
    omega
  · rw [h] at h2; simp at h2

theorem index_rest_facts {w : Nat} {m : TopMap α} {p : Int × α}
    (hh : m.top.head? = some (some p)) {key : Int}
    (h : m.index w key = Index.rest) : p.1 + (w : Int) ≤ key := by
  rcases index_spec (w := w) hh key with ⟨h1, h2⟩ | ⟨h1, h2, h3, h4⟩ | ⟨h1, h2, h3, h4⟩ |
    ⟨h1, h2⟩
  · rw [h] at h2; simp at h2
  · rw [h] at h4; simp at h4
  · rw [h] at h4; simp at h4
  · exact h1

end IndexLemmas

section DrainLemmas

variable {α : Type}

theorem iter_mk {top : List (Option (Int × α))} {rest : List (Int × α)} :
    (TopMap.mk top rest).iter = top.filterMap id ++ rest := rfl

theorem drainBack_spec {b : Int} :
    ∀ (c : Nat) (top : List (Option (Int × α))) (rest : List (Int × α)),
      sortedKeys rest → SlotKeys b top →
      (∀ q ∈ rest, b + (top.length : Int) ≤ q.1) → c ≤ top.length →
      (drainBack c (⟨top, rest⟩ : TopMap α)).top = top.take (top.length - c) ∧
      sortedKeys (drainBack c (⟨top, rest⟩ : TopMap α)).rest ∧
      (∀ q ∈ (drainBack c (⟨top, rest⟩ : TopMap α)).rest,
        b + (((drainBack c (⟨top, rest⟩ : TopMap α)).top.length : Nat) : Int) ≤ q.1) ∧
      (drainBack c (⟨top, rest⟩ : TopMap α)).iter = top.filterMap id ++ rest := by
  intro c
  induction c with
  | zero =>
    intro top rest hs hk hb _
    rw [drainBack]
    exact ⟨by simp, hs, hb, rfl⟩
  | succ c ih =>
    intro top rest hs hk hb hc
    rcases List.eq_nil_or_concat top with rfl | ⟨t₀, s, rfl⟩
    · simp at hc
    · rw [List.concat_eq_append] at hk hb hc ⊢
      have hkt : SlotKeys b t₀ := by
        have h2 := SlotKeys_dropLast hk
        rwa [List.dropLast_concat] at h2
      have hlen : (t₀ ++ [s]).length = t₀.length + 1 := by simp
      have hctake : (t₀ ++ [s]).take ((t₀ ++ [s]).length - (c + 1)) =
          t₀.take (t₀.length - c) := by
        rw [hlen, List.take_append_of_le_length (by omega)]
        congr 1
        omega
      cases s with
      | some q =>
        have hstep : drainBack (c + 1) (⟨t₀ ++ [some q], rest⟩ : TopMap α) =
            drainBack c ⟨t₀, (btreeInsert q.1 q.2 rest).2⟩ := by
          rw [drainBack]
          dsimp only
          rw [List.getLast?_concat, List.dropLast_concat]
        have hq1 : q.1 = b + t₀.length := by
          have h2 := hk t₀.length q (List.getElem?_concat_length t₀ (some q))
          omega
        have hblt : ∀ r ∈ rest, q.1 < r.1 := by
          intro r hr
          have h2 := hb r hr
          rw [hlen] at h2
          push_cast at h2
          omega
        have hins : btreeInsert q.1 q.2 rest = (none, q :: rest) := btreeInsert_of_lt hblt
        rw [hstep, hins]
        obtain ⟨ih1, ih2, ih3, ih4⟩ := ih t₀ (q :: rest) (sortedKeys_cons.2 ⟨hblt, hs⟩) hkt
          (by
            intro r hr
            rcases List.mem_cons.1 hr with hrq | hr
            · rw [hrq, hq1]
            · have h2 := hb r hr
              rw [hlen] at h2
              push_cast at h2 ⊢
              omega)
          (by rw [hlen] at hc; omega)
        refine ⟨?_, ih2, ih3, ?_⟩
        · rw [ih1, hctake]
        · rw [ih4, List.filterMap_append]
          simp
      | none =>
        have hstep : drainBack (c + 1) (⟨t₀ ++ [none], rest⟩ : TopMap α) =
            drainBack c ⟨t₀, rest⟩ := by
          rw [drainBack]
          dsimp only
          rw [List.getLast?_concat, List.dropLast_concat]
        rw [hstep]
        obtain ⟨ih1, ih2, ih3, ih4⟩ := ih t₀ rest hs hkt
          (by
            intro r hr
            have h2 := hb r hr
            rw [hlen] at h2
            push_cast at h2 ⊢
            omega)
          (by rw [hlen] at hc; omega)
        refine ⟨?_, ih2, ih3, ?_⟩
        · rw [ih1, hctake]
        · rw [ih4, List.filterMap_append]
          simp

end DrainLemmas

section InsertAboveTopLemmas

variable {α : Type}

theorem insertAboveTop_spec {w : Nat} {top : List (Option (Int × α))} {rest : List (Int × α)}
    {p : Int × α} (hs : sortedKeys rest)
    (hk : SlotKeys p.1 top) (hb : ∀ q ∈ rest, p.1 + (top.length : Int) ≤ q.1)
    (hw : 0 < w)
    {distance : Nat} {key : Int} (hd : (distance : Int) = p.1 - key) (hd1 : 1 ≤ distance)
    (v : α) {m2 : TopMap α}
    (hm2 : m2 = ⟨(insertAboveTop w (⟨top, rest⟩ : TopMap α) distance).top.set 0
        (some (key, v)),
      (insertAboveTop w (⟨top, rest⟩ : TopMap α) distance).rest⟩) :
    m2.top.head? = some (some (key, v)) ∧ SlotKeys key m2.top ∧ sortedKeys m2.rest ∧
      (∀ q ∈ m2.rest, key + (m2.top.length : Int) ≤ q.1) ∧ m2.top.length ≤ w ∧
      m2.iter = (key, v) :: (top.filterMap id ++ rest) := by
  subst hm2
  rw [insertAboveTop]
  dsimp only
  have hrepl : ∀ (t : List (Option (Int × α))),
      SlotKeys (key + distance) t →
      SlotKeys key (some (key, v) :: (List.replicate (distance - 1) none ++ t)) := by
    intro t ht
    refine SlotKeys_cons.2 ⟨fun r hr => by cases hr; rfl, ?_⟩
    refine SlotKeys_replicate_append (SlotKeys_congr ?_ ht)
    omega
  by_cases h1 : distance ≤ w
  · rw [if_pos h1]
    by_cases h2 : w - distance ≤ top.length
    · rw [if_pos h2]
      obtain ⟨d1, d2, d3, d4⟩ := drainBack_spec (b := p.1) (top.length - (w - distance))
        top rest hs hk hb (by omega)
      have htake : top.length - (top.length - (w - distance)) = w - distance := by omega
      rw [htake] at d1
      dsimp only [List.set_cons_zero]
      have hlentake : (top.take (w - distance)).length = w - distance := by
        rw [List.length_take]
        omega
      refine ⟨rfl, ?_, d2, ?_, ?_, ?_⟩
      · rw [d1]
        exact hrepl _ (SlotKeys_congr (by omega) (SlotKeys_take hk _))
      · intro q hq
        have h3 := d3 q hq
        rw [d1, hlentake] at h3
        simp only [List.length_cons, List.length_append, List.length_replicate, d1,
          hlentake]
        push_cast at h3 ⊢
        omega
      · simp only [List.length_cons, List.length_append, List.length_replicate, d1,
          hlentake]
        omega
      · rw [iter_mk, d1]
        simp only [List.filterMap_cons, id, List.filterMap_append, occ_replicate,
          List.nil_append, List.cons_append]
        congr 1
        rw [← d4, ← d1]
        rfl
    · rw [if_neg h2]
      dsimp only [List.set_cons_zero]
      refine ⟨rfl, ?_, hs, ?_, ?_, ?_⟩
      · exact hrepl _ (SlotKeys_congr (by omega) hk)
      · intro q hq
        have h3 := hb q hq
        simp only [List.length_cons, List.length_append, List.length_replicate]
        push_cast at h3 ⊢
        omega
      · simp only [List.length_cons, List.length_append, List.length_replicate]
        omega
      · rw [iter_mk]
        simp [List.filterMap_append, occ_replicate]
  · rw [if_neg h1]
    obtain ⟨d1, d2, d3, d4⟩ := drainBack_spec (b := p.1) top.length top rest hs hk hb le_rfl
    have htake : top.length - top.length = 0 := by omega
    rw [htake, List.take_zero] at d1
    rw [d1]
    dsimp only [List.set_cons_zero]
    refine ⟨rfl, ?_, d2, ?_, ?_, ?_⟩
    · exact SlotKeys_cons.2 ⟨fun r hr => by cases hr; rfl, SlotKeys_nil⟩
    · intro q hq
      have h3 := d3 q hq
      rw [d1] at h3
      simp only [List.length_cons, List.length_nil]
      push_cast at h3 ⊢
      omega
    · simp only [List.length_cons, List.length_nil]
      omega
    · have : (drainBack top.length (⟨top, rest⟩ : TopMap α)).iter =
          (drainBack top.length (⟨top, rest⟩ : TopMap α)).top.filterMap id ++
            (drainBack top.length (⟨top, rest⟩ : TopMap α)).rest := rfl
      rw [this, d1] at d4
      rw [iter_mk]
      simp only [List.filterMap_cons, id, List.filterMap_nil, List.nil_append] at d4 ⊢
      simp [d4]

end InsertAboveTopLemmas

section RefillLemmas

variable {α : Type}

theorem refillLoop_spec {w : Nat} {p : Int × α} :
    ∀ (rest : List (Int × α)) (top : List (Option (Int × α))),
      top.head? = some (some p) → sortedKeys rest → SlotKeys p.1 top →
      (∀ q ∈ rest, p.1 + (top.length : Int) ≤ q.1) →
      (refillLoop w p.1 top rest).top.head? = some (some p) ∧
      SlotKeys p.1 (refillLoop w p.1 top rest).top ∧
      sortedKeys (refillLoop w p.1 top rest).rest ∧
      (∀ q ∈ (refillLoop w p.1 top rest).rest,
        p.1 + (((refillLoop w p.1 top rest).top.length : Nat) : Int) ≤ q.1) ∧
      (∀ q ∈ (refillLoop w p.1 top rest).rest, p.1 + ((w / 2 : Nat) : Int) ≤ q.1) ∧
      (refillLoop w p.1 top rest).top.filterMap id ++ (refillLoop w p.1 top rest).rest =
        top.filterMap id ++ rest ∧
      (refillLoop w p.1 top rest).top.length ≤ max top.length (w / 2) := by
  intro rest
  induction rest with
  | nil =>
    intro top hh hs hk hb
    rw [refillLoop]
    exact ⟨hh, hk, hs, by simp, by simp, rfl, le_max_left _ _⟩
  | cons q tail ih =>
    intro top hh hs hk hb
    have htne : top ≠ [] := by
      intro h
      rw [h] at hh
      simp at hh
    have htlen : 1 ≤ top.length := by
      cases top with
      | nil => exact absurd rfl htne
      | cons s t => simp
    have hq := hb q (List.mem_cons_self _ _)
    have hpos : positive (q.1 - p.1) = some (q.1 - p.1).toNat := by
      rw [positive, if_pos (by omega)]
    rw [refillLoop, hpos]
    dsimp only
    by_cases hstop : w / 2 ≤ (q.1 - p.1).toNat
    · rw [if_pos hstop]
      refine ⟨hh, hk, hs, hb, ?_, rfl, le_max_left _ _⟩
      intro r hr
      rcases List.mem_cons.1 hr with hrq | hr
      · rw [hrq]
        omega
      · have := (sortedKeys_cons.1 hs).1 r hr
        omega
    · rw [if_neg hstop]
      have hidx : top.length ≤ (q.1 - p.1).toNat := by omega
      have hlen2 : ((ensureIndex top ((q.1 - p.1).toNat)).set ((q.1 - p.1).toNat)
          (some q)).length = (q.1 - p.1).toNat + 1 := by
        rw [List.length_set, ensureIndex_length]
        omega
      have hh2 : ((ensureIndex top ((q.1 - p.1).toNat)).set ((q.1 - p.1).toNat)
          (some q)).head? = some (some p) := by
        rw [head?_set (by omega), head?_ensureIndex htne]
        exact hh
      have hk2 : SlotKeys p.1 ((ensureIndex top ((q.1 - p.1).toNat)).set
          ((q.1 - p.1).toNat) (some q)) :=
        SlotKeys_set (SlotKeys_ensureIndex hk _) _ q (by omega)
      have hb2 : ∀ r ∈ tail, p.1 + (((ensureIndex top ((q.1 - p.1).toNat)).set
          ((q.1 - p.1).toNat) (some q)).length : Int) ≤ r.1 := by
        intro r hr
        have := (sortedKeys_cons.1 hs).1 r hr
        rw [hlen2]
        push_cast
        omega
      obtain ⟨c1, c2, c3, c4, c5, c6, c7⟩ := ih _ hh2 (sortedKeys_cons.1 hs).2 hk2 hb2
      refine ⟨c1, c2, c3, c4, c5, ?_, ?_⟩
      · rw [c6, occ_ensureIndex_set hidx]
        simp
      · rw [hlen2] at c7
        omega

theorem refill_spec {w : Nat} {m : TopMap α} (hs : sortedKeys m.rest)
    (hcase : m.top = [] ∨ ∃ p, m.top.head? = some (some p) ∧ SlotKeys p.1 m.top ∧
      ∀ q ∈ m.rest, p.1 + (m.top.length : Int) ≤ q.1) :
    sortedKeys (refill w m).rest ∧
    ((refill w m).top = [] ∧ (refill w m).rest = [] ∨
      ∃ p, (refill w m).top.head? = some (some p) ∧ SlotKeys p.1 (refill w m).top ∧
        (∀ q ∈ (refill w m).rest, p.1 + ((refill w m).top.length : Int) ≤ q.1) ∧
        (∀ q ∈ (refill w m).rest, p.1 + ((w / 2 : Nat) : Int) ≤ q.1)) ∧
    (refill w m).iter = m.iter ∧
    (refill w m).top.length ≤ max (max m.top.length 1) (w / 2) := by
  rcases hcase with hnil | ⟨p, hh, hk, hb⟩
  · cases hrest : m.rest with
    | nil =>
      have hm : refill w m = m := by
        rw [refill, hnil, hrest]
        rfl
      rw [hm]
      refine ⟨hs, Or.inl ⟨hnil, hrest⟩, rfl, ?_⟩
      rw [hnil]
      simp
    | cons q tail =>
      have hm : refill w m = refillLoop w q.1 [some q] tail := by
        rw [refill, hnil, hrest]
        rfl
      rw [hrest] at hs
      have hsort := sortedKeys_cons.1 hs
      obtain ⟨c1, c2, c3, c4, c5, c6, c7⟩ := refillLoop_spec (w := w) (p := q) tail
        ([some q]) rfl hsort.2 (SlotKeys_cons.2 ⟨fun r hr => by cases hr; rfl, SlotKeys_nil⟩)
        (by
          intro r hr
          have := hsort.1 r hr
          simp only [List.length_cons, List.length_nil]
          push_cast
          omega)
      rw [hm]
      refine ⟨c3, Or.inr ⟨q, c1, c2, c4, c5⟩, ?_, ?_⟩
      · show (refillLoop w q.1 [some q] tail).top.filterMap id ++
          (refillLoop w q.1 [some q] tail).rest = m.iter
        rw [c6, TopMap.iter, hnil, hrest]
        simp
      · refine le_trans c7 ?_
        simp only [List.length_cons, List.length_nil]
        omega
  · have hm : refill w m = refillLoop w p.1 m.top m.rest := by rw [refill, hh]
    obtain ⟨c1, c2, c3, c4, c5, c6, c7⟩ := refillLoop_spec (w := w) (p := p) m.rest
      m.top hh hs hk hb
    rw [hm]
    refine ⟨c3, Or.inr ⟨p, c1, c2, c4, c5⟩, c6, ?_⟩
    exact le_trans c7 (by omega)

end RefillLemmas

section GetLemmas

variable {α : Type}

theorem head?_set_zero {t : List (Option (Int × α))} (h : t ≠ [])
    (x : Option (Int × α)) : (t.set 0 x).head? = some x := by
  cases t with
  | nil => exact absurd rfl h
  | cons s t => rw [List.set_cons_zero, List.head?_cons]

theorem iter_sorted {w : Nat} {m : TopMap α} (h : Inv w m) : sortedKeys m.iter := by
  obtain ⟨hs, hlen, hcase⟩ := h
  rcases hcase with hnil | ⟨p, hh, hk, hb⟩
  · rw [TopMap.iter, hnil]
    simpa using hs
  · rw [TopMap.iter, sortedKeys, List.pairwise_append]
    refine ⟨occ_sorted hk, hs, ?_⟩
    intro a ha b hb2
    have h1 := (mem_occ_bounds hk ha).2
    have h2 := hb b hb2
    omega

theorem mem_iter_lower {w : Nat} {m : TopMap α} (h : Inv w m) {p : Int × α}
    (hh : m.top.head? = some (some p)) {q : Int × α} (hq : q ∈ m.iter) : p.1 ≤ q.1 := by
  obtain ⟨hs, hlen, hcase⟩ := h
  rcases hcase with hnil | ⟨r, hh2, hk, hb⟩
  · rw [hnil] at hh
    simp at hh
  · rw [hh2] at hh
    injection hh with hh
    injection hh with hh
    subst hh
    rw [TopMap.iter] at hq
    rcases List.mem_append.1 hq with hq | hq
    · exact (mem_occ_bounds hk hq).1
    · have h2 := hb q hq
      have h3 : 0 ≤ (m.top.length : Int) := by positivity
      omega

theorem get_spec {w : Nat} {m : TopMap α} (h : Inv w m) (key : Int) :
    m.get w key = btreeGet key m.iter := by
  obtain ⟨hs, hlen, hcase⟩ := h
  rcases hcase with hnil | ⟨p, hh, hk, hb⟩
  · rw [TopMap.get, index_of_empty hnil key, TopMap.iter, hnil]
    dsimp only
    simp
  · rcases index_spec (w := w) hh key with ⟨h1, hEq⟩ | ⟨h1, h2, h3, hEq⟩ |
      ⟨h1, h2, h3, hEq⟩ | ⟨h1, hEq⟩
    · rw [TopMap.get, hEq]
      dsimp only
      symm
      apply btreeGet_eq_none
      intro q hq
      rw [TopMap.iter] at hq
      rcases List.mem_append.1 hq with hq | hq
      · have := (mem_occ_bounds hk hq).1
        omega
      · have := hb q hq
        have h4 : 0 ≤ (m.top.length : Int) := by positivity
        omega
    · rw [TopMap.get, hEq]
      dsimp only
      have hlt : (key - p.1).toNat < m.top.length := by omega
      have hocc := btreeGet_occ hk hlt
      have hkey : p.1 + (((key - p.1).toNat : Nat) : Int) = key := by omega
      rw [hkey] at hocc
      rw [TopMap.iter, btreeGet_append, hocc]
      rcases hopt : (m.top[(key - p.1).toNat]?.bind id).map Prod.snd with _ | r
      · symm
        apply btreeGet_eq_none
        intro q hq
        have := hb q hq
        omega
      · rfl
    · rw [TopMap.get, hEq]
      dsimp only
      rw [TopMap.iter, btreeGet_append]
      rw [btreeGet_eq_none (l := m.top.filterMap id) ?_]
      intro q hq
      have := (mem_occ_bounds hk hq).2
      omega
    · rw [TopMap.get, hEq]
      dsimp only
      rw [TopMap.iter, btreeGet_append]
      rw [btreeGet_eq_none (l := m.top.filterMap id) ?_]
      intro q hq
      have := (mem_occ_bounds hk hq).2
      omega

theorem getMut_eq_get {w : Nat} {m : TopMap α} (key : Int) :
    m.getMut w key = m.get w key := rfl

end GetLemmas

section InsertSpec

variable {α : Type}

theorem insert_spec {w : Nat} {m : TopMap α} (h : Inv w m) (hw : 0 < w) (key : Int)
    (v : α) :
    (m.insert w key v).1 = (btreeInsert key v m.iter).1 ∧
    (m.insert w key v).2.iter = (btreeInsert key v m.iter).2 ∧
    Inv w (m.insert w key v).2 := by
  obtain ⟨top, rest⟩ := m
  obtain ⟨hs, hlen, hcase⟩ := h
  dsimp only at hs hlen hcase
  rcases hcase with hnil | ⟨p, hh, hk, hb⟩
  · subst hnil
    rw [TopMap.insert, index_of_empty rfl key]
    dsimp only
    rw [show (TopMap.mk ([] : List (Option (Int × α))) rest).iter = rest by
      rw [iter_mk]; simp]
    cases rest with
    | nil =>
      rw [show ((TopMap.mk ([] : List (Option (Int × α))) []).rest.head?) = none from rfl]
      dsimp only
      rw [show ensureIndex ([] : List (Option (Int × α))) 0 = [none] from rfl]
      refine ⟨rfl, ?_, ?_⟩
      · rw [show (([none] : List (Option (Int × α))).set 0 (some (key, v))) =
          [some (key, v)] from rfl, iter_mk]
        simp [btreeInsert]
      · refine ⟨by simp [sortedKeys], by simpa using hw, Or.inr ⟨(key, v), by simp, ?_, by simp⟩⟩
        rw [show (([none] : List (Option (Int × α))).set 0 (some (key, v))) =
          [some (key, v)] from rfl]
        exact SlotKeys_cons.2 ⟨fun r hr => by cases hr; rfl, SlotKeys_nil⟩
    | cons q tail =>
      rw [show ((TopMap.mk ([] : List (Option (Int × α))) (q :: tail)).rest.head?) =
        some q from rfl]
      dsimp only
      by_cases hcmp : q.1 ≤ key
      · rw [if_pos hcmp]
        refine ⟨rfl, by rw [iter_mk]; simp, ?_⟩
        exact ⟨btreeInsert_sorted hs, by simp, Or.inl rfl⟩
      · rw [if_neg hcmp]
        rw [show ensureIndex ([] : List (Option (Int × α))) 0 = [none] from rfl]
        rw [show (([none] : List (Option (Int × α))).set 0 (some (key, v))) =
          [some (key, v)] from rfl]
        have hlt : ∀ r ∈ q :: tail, key < r.1 := by
          intro r hr
          rcases List.mem_cons.1 hr with hr | hr
          · rw [hr]
            omega
          · have := (sortedKeys_cons.1 hs).1 r hr
            omega
        rw [btreeInsert_of_lt hlt]
        refine ⟨rfl, by rw [iter_mk]; simp, ?_⟩
        refine ⟨hs, by simpa using hw, Or.inr ⟨(key, v), by simp, ?_, ?_⟩⟩
        · exact SlotKeys_cons.2 ⟨fun r hr => by cases hr; rfl, SlotKeys_nil⟩
        · intro r hr
          have := hlt r hr
          simp only [List.length_cons, List.length_nil]
          omega
  · have hne : top ≠ [] := by
      intro h2
      rw [h2] at hh
      simp at hh
    have htlen : 1 ≤ top.length := by
      cases top with
      | nil => exact absurd rfl hne
      | cons s t => simp
    have hiterkeys : ∀ q ∈ (TopMap.mk top rest).iter, p.1 ≤ q.1 := by
      intro q hq
      rw [iter_mk] at hq
      rcases List.mem_append.1 hq with hq | hq
      · exact (mem_occ_bounds hk hq).1
      · have := hb q hq
        omega
    rcases index_spec (w := w) (m := TopMap.mk top rest) hh key with ⟨h1, hEq⟩ |
      ⟨h1, h2, h3, hEq⟩ | ⟨h1, h2, h3, hEq⟩ | ⟨h1, hEq⟩
    · -- AboveTop: window shift
      rw [TopMap.insert, hEq]
      dsimp only
      have hd : ((p.1 - key).toNat : Int) = p.1 - key := by omega
      have hd1 : 1 ≤ (p.1 - key).toNat := by omega
      obtain ⟨a1, a2, a3, a4, a5, a6⟩ := insertAboveTop_spec hs hk hb hw hd hd1 v rfl
      have hbt : btreeInsert key v (TopMap.mk top rest).iter =
          (none, (key, v) :: (TopMap.mk top rest).iter) := by
        apply btreeInsert_of_lt
        intro q hq
        have := hiterkeys q hq
        omega
      rw [hbt]
      refine ⟨rfl, ?_, ?_⟩
      · simp only [iter_mk] at a6 ⊢
        exact a6
      · exact ⟨a3, a5, Or.inr ⟨(key, v), a1, a2, a4⟩⟩
    · -- InsideTop: direct slot write
      rw [TopMap.insert, hEq]
      dsimp only
      have hlt : (key - p.1).toNat < top.length := by
        simp only [List.length_cons] at h3 ⊢
        omega
      have hocc := btreeInsert_occ hk hlt v
      have hkey : p.1 + (((key - p.1).toNat : Nat) : Int) = key := by omega
      rw [hkey] at hocc
      have hrlt : ∀ q ∈ rest, key < q.1 := by
        intro q hq
        have := hb q hq
        omega
      have hbt : btreeInsert key v (top.filterMap id ++ rest) =
          ((btreeInsert key v (top.filterMap id)).1,
            (btreeInsert key v (top.filterMap id)).2 ++ rest) :=
        btreeInsert_append_lt hrlt
      rw [iter_mk, hbt, hocc]
      refine ⟨rfl, by rw [iter_mk], ?_⟩
      refine ⟨hs, by simpa using hlen, ?_⟩
      rcases Nat.eq_zero_or_pos (key - p.1).toNat with hz | hpos
      · rw [hz]
        have hkp : key = p.1 := by omega
        refine Or.inr ⟨(key, v), head?_set_zero hne _, ?_, ?_⟩
        · refine SlotKeys_set ?_ 0 (key, v) (by simp)
          rw [hkp]
          exact hk
        · intro q hq
          have := hb q hq
          simp only [List.length_set]
          omega
      · refine Or.inr ⟨p, ?_, SlotKeys_set hk _ (key, v) (by omega), ?_⟩
        · rw [head?_set (by omega)]
          exact hh
        · intro q hq
          have := hb q hq
          simp only [List.length_set]
          omega
    · -- OutsideTop
      rw [TopMap.insert, hEq]
      dsimp only
      have hofflen : top.length ≤ (key - p.1).toNat := by
        simp only [List.length_cons] at h3 ⊢
        omega
      have hoccgt : ∀ q ∈ top.filterMap id, q.1 < key := by
        intro q hq
        have := (mem_occ_bounds hk hq).2
        omega
      have h3b : p.1 + (top.length : Int) ≤ key := by simpa using h3
      cases hrest : rest with
      | nil =>
        rw [show (TopMap.mk top ([] : List (Int × α))).rest.head? = none from rfl]
        dsimp only
        simp only [iter_mk, List.append_nil]
        rw [btreeInsert_of_gt hoccgt, ensureIndex_getElem?_bind hofflen,
          occ_ensureIndex_set hofflen]
        refine ⟨rfl, rfl, ?_⟩
        refine ⟨by simp [sortedKeys], ?_, ?_⟩
        · simp only [List.length_set, ensureIndex_length]
          omega
        · refine Or.inr ⟨p, ?_, ?_, by simp⟩
          · rw [head?_set (by omega), head?_ensureIndex hne]
            exact hh
          · exact SlotKeys_set (SlotKeys_ensureIndex hk _) _ (key, v) (by omega)
      | cons q tail =>
        rw [show (TopMap.mk top (q :: tail)).rest.head? = some q from rfl]
        dsimp only
        rw [hrest] at hs hb
        by_cases hcmp : q.1 ≤ key
        · rw [if_pos hcmp]
          have hbt : btreeInsert key v (top.filterMap id ++ (q :: tail)) =
              ((btreeInsert key v (q :: tail)).1,
                top.filterMap id ++ (btreeInsert key v (q :: tail)).2) :=
            btreeInsert_append_gt hoccgt
          simp only [iter_mk]
          rw [hbt]
          refine ⟨rfl, rfl, ?_⟩
          refine ⟨btreeInsert_sorted hs, by simpa using hlen, ?_⟩
          refine Or.inr ⟨p, hh, hk, ?_⟩
          intro r hr
          rcases mem_btreeInsert hr with hr | hr
          · rw [hr]
            dsimp only
            omega
          · exact hb r hr
        · rw [if_neg hcmp]
          have hreskeys : ∀ r ∈ q :: tail, key < r.1 := by
            intro r hr
            rcases List.mem_cons.1 hr with hr | hr
            · rw [hr]
              omega
            · have := (sortedKeys_cons.1 hs).1 r hr
              omega
          have hbt : btreeInsert key v (top.filterMap id ++ (q :: tail)) =
              ((btreeInsert key v (top.filterMap id)).1,
                (btreeInsert key v (top.filterMap id)).2 ++ (q :: tail)) :=
            btreeInsert_append_lt hreskeys
          simp only [iter_mk]
          rw [hbt, btreeInsert_of_gt hoccgt]
          rw [ensureIndex_getElem?_bind hofflen, occ_ensureIndex_set hofflen]
          refine ⟨rfl, by simp, ?_⟩
          refine ⟨hs, ?_, ?_⟩
          · simp only [List.length_set, ensureIndex_length]
            omega
          · refine Or.inr ⟨p, ?_, ?_, ?_⟩
            · rw [head?_set (by omega), head?_ensureIndex hne]
              exact hh
            · exact SlotKeys_set (SlotKeys_ensureIndex hk _) _ (key, v) (by omega)
            · intro r hr
              have := hreskeys r hr
              simp only [List.length_set, ensureIndex_length]
              omega
    · -- Rest
      rw [TopMap.insert, hEq]
      dsimp only
      have hoccgt : ∀ q ∈ top.filterMap id, q.1 < key := by
        intro q hq
        have := (mem_occ_bounds hk hq).2
        omega
      have hbt : btreeInsert key v (top.filterMap id ++ rest) =
          ((btreeInsert key v rest).1, top.filterMap id ++ (btreeInsert key v rest).2) :=
        btreeInsert_append_gt hoccgt
      rw [iter_mk, hbt]
      refine ⟨rfl, by rw [iter_mk], ?_⟩
      refine ⟨btreeInsert_sorted hs, by simpa using hlen, ?_⟩
      refine Or.inr ⟨p, hh, hk, ?_⟩
      intro r hr
      rcases mem_btreeInsert hr with hr | hr
      · rw [hr]
        dsimp only
        omega
      · exact hb r hr

end InsertSpec

section RemoveSpec

variable {α : Type}

theorem remove_spec {w : Nat} {m : TopMap α} (h : Inv w m) (key : Int) :
    (m.remove w key).1 = (btreeRemove key m.iter).1 ∧
    (m.remove w key).2.iter = (btreeRemove key m.iter).2 ∧
    Inv w (m.remove w key).2 := by
  obtain ⟨top, rest⟩ := m
  obtain ⟨hs, hlen, hcase⟩ := h
  dsimp only at hs hlen hcase
  rcases hcase with hnil | ⟨p, hh, hk, hb⟩
  · subst hnil
    rw [TopMap.remove, index_of_empty rfl key]
    dsimp only
    exact ⟨rfl, rfl, btreeRemove_sorted hs, by simp, Or.inl rfl⟩
  · have hne : top ≠ [] := by
      intro h2
      rw [h2] at hh
      simp at hh
    have htlen : 1 ≤ top.length := by
      cases top with
      | nil => exact absurd rfl hne
      | cons s t => simp
    rcases index_spec (w := w) (m := TopMap.mk top rest) hh key with ⟨h1, hEq⟩ |
      ⟨h1, h2, h3, hEq⟩ | ⟨h1, h2, h3, hEq⟩ | ⟨h1, hEq⟩
    · -- AboveTop: absent below the window, no-op
      rw [TopMap.remove, hEq]
      dsimp only
      have hbt : btreeRemove key (TopMap.mk top rest).iter =
          (none, (TopMap.mk top rest).iter) := by
        apply btreeRemove_of_get_none
        apply btreeGet_eq_none
        intro q hq
        rw [iter_mk] at hq
        rcases List.mem_append.1 hq with hq | hq
        · have := (mem_occ_bounds hk hq).1
          omega
        · have := hb q hq
          omega
      rw [hbt]
      exact ⟨rfl, rfl, hs, hlen, Or.inr ⟨p, hh, hk, hb⟩⟩
    · -- InsideTop
      have h3b : key < p.1 + (top.length : Int) := by simpa using h3
      rcases Nat.eq_zero_or_pos (key - p.1).toNat with hz | hposi
      · -- front removal
        rw [hz] at hEq
        have hkp : key = p.1 := by omega
        cases top with
        | nil => exact absurd rfl hne
        | cons s t =>
          have hsp : s = some p := by simpa using hh
          subst hsp
          rw [TopMap.remove, hEq]
          dsimp only
          have hkt : SlotKeys (p.1 + 1) t := (SlotKeys_cons.1 hk).2
          have hbt : btreeRemove key (TopMap.mk (some p :: t) rest).iter =
              (some p.2, t.filterMap id ++ rest) := by
            rw [iter_mk, List.filterMap_cons]
            dsimp only [id]
            rw [List.cons_append, btreeRemove, if_pos hkp]
          rw [hbt]
          have hb2 : ∀ q ∈ rest, p.1 + 1 + (t.length : Int) ≤ q.1 := by
            intro q hq
            have := hb q hq
            simp only [List.length_cons] at this
            push_cast at this ⊢
            omega
          rcases popHoles_cases hkt with hemp | ⟨p₂, t₂, he, hsk, hlen2, hble⟩
          · -- window fully emptied by hole popping
            by_cases hmin : (popHoles t).length ≤ w / 2
            · rw [if_pos hmin]
              obtain ⟨c1, c2, c3, c4⟩ := refill_spec (w := w) (m := ⟨popHoles t, rest⟩)
                hs (Or.inl hemp)
              refine ⟨rfl, ?_, c1, ?_, ?_⟩
              · rw [c3, iter_mk, occ_popHoles]
              · have c4b : (refill w (⟨popHoles t, rest⟩ : TopMap α)).top.length ≤
                    max (max (popHoles t).length 1) (w / 2) := by simpa using c4
                have hple := popHoles_length_le (t := t)
                simp only [List.length_cons] at hlen
                dsimp only
                omega
              · rcases c2 with ⟨ce1, _⟩ | ⟨p₃, d1, d2, d3, _⟩
                · exact Or.inl ce1
                · exact Or.inr ⟨p₃, d1, d2, d3⟩
            · rw [if_neg hmin]
              refine ⟨rfl, by rw [iter_mk, occ_popHoles], hs, ?_, Or.inl hemp⟩
              dsimp only
              have hple := popHoles_length_le (t := t)
              simp only [List.length_cons] at hlen
              omega
          · have hbnd : ∀ q ∈ rest,
                p₂.1 + (((⟨popHoles t, rest⟩ : TopMap α)).top.length : Int) ≤ q.1 := by
              intro q hq
              have := hb2 q hq
              dsimp only
              omega
            by_cases hmin : (popHoles t).length ≤ w / 2
            · rw [if_pos hmin]
              obtain ⟨c1, c2, c3, c4⟩ := refill_spec (w := w) (m := ⟨popHoles t, rest⟩)
                hs (Or.inr ⟨p₂, by rw [he]; rfl, hsk, hbnd⟩)
              refine ⟨rfl, ?_, c1, ?_, ?_⟩
              · rw [c3, iter_mk, occ_popHoles]
              · have c4b : (refill w (⟨popHoles t, rest⟩ : TopMap α)).top.length ≤
                    max (max (popHoles t).length 1) (w / 2) := by simpa using c4
                have hple := popHoles_length_le (t := t)
                simp only [List.length_cons] at hlen
                dsimp only
                omega
              · rcases c2 with ⟨ce1, _⟩ | ⟨p₃, d1, d2, d3, _⟩
                · exact Or.inl ce1
                · exact Or.inr ⟨p₃, d1, d2, d3⟩
            · rw [if_neg hmin]
              refine ⟨rfl, by rw [iter_mk, occ_popHoles], hs, ?_, ?_⟩
              · dsimp only
                have hple := popHoles_length_le (t := t)
                simp only [List.length_cons] at hlen
                omega
              · refine Or.inr ⟨p₂, by rw [he]; rfl, hsk, ?_⟩
                intro q hq
                have h5 := hbnd q hq
                dsimp only at h5 ⊢
                omega
      · -- interior removal: blank the slot
        obtain ⟨i₀, hi⟩ : ∃ i₀, (key - p.1).toNat = i₀ + 1 :=
          ⟨(key - p.1).toNat - 1, by omega⟩
        rw [hi] at hEq
        rw [TopMap.remove, hEq]
        dsimp only
        have hlt : i₀ + 1 < top.length := by omega
        have hocc := btreeRemove_occ hk hlt
        have hkey : p.1 + ((i₀ + 1 : Nat) : Int) = key := by omega
        rw [hkey] at hocc
        have hrlt : ∀ q ∈ rest, key < q.1 := by
          intro q hq
          have := hb q hq
          omega
        have hbt : btreeRemove key (top.filterMap id ++ rest) =
            ((btreeRemove key (top.filterMap id)).1,
              (btreeRemove key (top.filterMap id)).2 ++ rest) :=
          btreeRemove_append_lt hrlt
        rw [iter_mk, hbt, hocc]
        refine ⟨rfl, rfl, hs, by simpa using hlen, ?_⟩
        refine Or.inr ⟨p, ?_, SlotKeys_set_none hk _, ?_⟩
        · rw [head?_set (by omega)]
          exact hh
        · intro q hq
          have := hb q hq
          simp only [List.length_set]
          omega
    · -- OutsideTop: delegate to the overflow store
      rw [TopMap.remove, hEq]
      dsimp only
      have h3b : p.1 + (top.length : Int) ≤ key := by simpa using h3
      have hocc : ∀ q ∈ top.filterMap id, q.1 ≠ key := by
        intro q hq
        have := (mem_occ_bounds hk hq).2
        omega
      have hbt : btreeRemove key (top.filterMap id ++ rest) =
          ((btreeRemove key rest).1, top.filterMap id ++ (btreeRemove key rest).2) :=
        btreeRemove_append_of_ne hocc
      rw [iter_mk, hbt]
      refine ⟨rfl, rfl, btreeRemove_sorted hs, by simpa using hlen, ?_⟩
      refine Or.inr ⟨p, hh, hk, ?_⟩
      intro q hq
      exact hb q (mem_btreeRemove hq)
    · -- Rest
      rw [TopMap.remove, hEq]
      dsimp only
      have hocc : ∀ q ∈ top.filterMap id, q.1 ≠ key := by
        intro q hq
        have := (mem_occ_bounds hk hq).2
        omega
      have hbt : btreeRemove key (top.filterMap id ++ rest) =
          ((btreeRemove key rest).1, top.filterMap id ++ (btreeRemove key rest).2) :=
        btreeRemove_append_of_ne hocc
      rw [iter_mk, hbt]
      refine ⟨rfl, rfl, btreeRemove_sorted hs, by simpa using hlen, ?_⟩
      refine Or.inr ⟨p, hh, hk, ?_⟩
      intro q hq
      exact hb q (mem_btreeRemove hq)

end RemoveSpec

section OrInsertSpec

variable {α : Type}

theorem btreeOrInsert_sorted {k : Int} {v : α} {l : List (Int × α)} (hs : sortedKeys l) :
    sortedKeys (btreeOrInsert k v l) := by
  rw [btreeOrInsert]
  cases btreeGet k l with
  | none => exact btreeInsert_sorted hs
  | some r => exact hs

theorem mem_btreeOrInsert {k : Int} {v : α} {l : List (Int × α)} {q : Int × α}
    (h : q ∈ btreeOrInsert k v l) : q = (k, v) ∨ q ∈ l := by
  rw [btreeOrInsert] at h
  cases hg : btreeGet k l with
  | none =>
    rw [hg] at h
    exact mem_btreeInsert h
  | some r =>
    rw [hg] at h
    exact Or.inr h

theorem insertAboveTop_front {w : Nat} {m : TopMap α} {d : Nat} :
    (insertAboveTop w m d).top[0]?.bind id = none := by
  rw [insertAboveTop]
  split_ifs <;> simp

theorem head?_take {β : Type} {t : List β} {n : Nat} (h : 1 ≤ n) :
    (t.take n).head? = t.head? := by
  cases t with
  | nil => simp
  | cons s t2 =>
    cases n with
    | zero => omega
    | succ n => rw [List.take_succ_cons, List.head?_cons, List.head?_cons]

theorem orInsert_spec {w : Nat} {m : TopMap α} (h : Inv w m) (hw : 0 < w) (key : Int)
    (d : α) : Inv w (m.orInsert w key d) := by
  obtain ⟨top, rest⟩ := m
  obtain ⟨hs, hlen, hcase⟩ := h
  dsimp only at hs hlen hcase
  rcases hcase with hnil | ⟨p, hh, hk, hb⟩
  · subst hnil
    rw [TopMap.orInsert, index_of_empty rfl key]
    dsimp only
    cases rest with
    | nil =>
      rw [show ((TopMap.mk ([] : List (Option (Int × α))) []).rest.head?) = none from rfl]
      dsimp only
      rw [show ensureIndex ([] : List (Option (Int × α))) 0 = [none] from rfl]
      rw [show (([none] : List (Option (Int × α)))[0]?.bind id) = none from rfl]
      dsimp only
      rw [show (([none] : List (Option (Int × α))).set 0 (some (key, d))) =
        [some (key, d)] from rfl]
      refine ⟨by simp [sortedKeys], by simpa using hw, Or.inr ⟨(key, d), by simp, ?_, by simp⟩⟩
      exact SlotKeys_cons.2 ⟨fun r hr => by cases hr; rfl, SlotKeys_nil⟩
    | cons q tail =>
      rw [show ((TopMap.mk ([] : List (Option (Int × α))) (q :: tail)).rest.head?) =
        some q from rfl]
      dsimp only
      by_cases hcmp : q.1 ≤ key
      · rw [if_pos hcmp]
        exact ⟨btreeOrInsert_sorted hs, by simp, Or.inl rfl⟩
      · rw [if_neg hcmp]
        rw [show ensureIndex ([] : List (Option (Int × α))) 0 = [none] from rfl]
        rw [show (([none] : List (Option (Int × α)))[0]?.bind id) = none from rfl]
        dsimp only
        rw [show (([none] : List (Option (Int × α))).set 0 (some (key, d))) =
          [some (key, d)] from rfl]
        refine ⟨hs, by simpa using hw, Or.inr ⟨(key, d), by simp, ?_, ?_⟩⟩
        · exact SlotKeys_cons.2 ⟨fun r hr => by cases hr; rfl, SlotKeys_nil⟩
        · intro r hr
          rcases List.mem_cons.1 hr with hr | hr
          · rw [hr]
            simp only [List.length_cons, List.length_nil]
            omega
          · have := (sortedKeys_cons.1 hs).1 r hr
            simp only [List.length_cons, List.length_nil]
            omega
  · have hne : top ≠ [] := by
      intro h2
      rw [h2] at hh
      simp at hh
    have htlen : 1 ≤ top.length := by
      cases top with
      | nil => exact absurd rfl hne
      | cons s t => simp
    rcases index_spec (w := w) (m := TopMap.mk top rest) hh key with ⟨h1, hEq⟩ |
      ⟨h1, h2, h3, hEq⟩ | ⟨h1, h2, h3, hEq⟩ | ⟨h1, hEq⟩
    · rw [TopMap.orInsert, hEq]
      dsimp only
      rw [insertAboveTop_front]
      dsimp only
      have hd : ((p.1 - key).toNat : Int) = p.1 - key := by omega
      have hd1 : 1 ≤ (p.1 - key).toNat := by omega
      obtain ⟨a1, a2, a3, a4, a5, a6⟩ := insertAboveTop_spec hs hk hb hw hd hd1 d rfl
      exact ⟨a3, a5, Or.inr ⟨(key, d), a1, a2, a4⟩⟩
    · rw [TopMap.orInsert, hEq]
      dsimp only
      have h3b : key < p.1 + (top.length : Int) := by simpa using h3
      cases hslot : (top[(key - p.1).toNat]?.bind id) with
      | some r => exact ⟨hs, by simpa using hlen, Or.inr ⟨p, hh, hk, hb⟩⟩
      | none =>
        dsimp only
        refine ⟨hs, by simpa using hlen, ?_⟩
        rcases Nat.eq_zero_or_pos (key - p.1).toNat with hz | hposi
        · rw [hz]
          have hkp : key = p.1 := by omega
          refine Or.inr ⟨(key, d), head?_set_zero hne _, ?_, ?_⟩
          · refine SlotKeys_set ?_ 0 (key, d) (by simp)
            rw [hkp]
            exact hk
          · intro q hq
            have := hb q hq
            simp only [List.length_set]
            omega
        · refine Or.inr ⟨p, ?_, SlotKeys_set hk _ (key, d) (by omega), ?_⟩
          · rw [head?_set (by omega)]
            exact hh
          · intro q hq
            have := hb q hq
            simp only [List.length_set]
            omega
    · rw [TopMap.orInsert, hEq]
      dsimp only
      have h3b : p.1 + (top.length : Int) ≤ key := by simpa using h3
      have hofflen : top.length ≤ (key - p.1).toNat := by omega
      cases hrest : rest with
      | nil =>
        rw [show (TopMap.mk top ([] : List (Int × α))).rest.head? = none from rfl]
        dsimp only
        rw [ensureIndex_getElem?_bind hofflen]
        dsimp only
        refine ⟨by simp [sortedKeys], ?_, ?_⟩
        · simp only [List.length_set, ensureIndex_length]
          omega
        · refine Or.inr ⟨p, ?_, ?_, by simp⟩
          · rw [head?_set (by omega), head?_ensureIndex hne]
            exact hh
          · exact SlotKeys_set (SlotKeys_ensureIndex hk _) _ (key, d) (by omega)
      | cons q tail =>
        rw [show (TopMap.mk top (q :: tail)).rest.head? = some q from rfl]
        dsimp only
        rw [hrest] at hs hb
        by_cases hcmp : q.1 ≤ key
        · rw [if_pos hcmp]
          refine ⟨btreeOrInsert_sorted hs, by simpa using hlen, ?_⟩
          refine Or.inr ⟨p, hh, hk, ?_⟩
          intro r hr
          rcases mem_btreeOrInsert hr with hr | hr
          · rw [hr]
            dsimp only
            omega
          · exact hb r hr
        · rw [if_neg hcmp]
          rw [ensureIndex_getElem?_bind hofflen]
          dsimp only
          refine ⟨hs, ?_, ?_⟩
          · simp only [List.length_set, ensureIndex_length]
            omega
          · refine Or.inr ⟨p, ?_, ?_, ?_⟩
            · rw [head?_set (by omega), head?_ensureIndex hne]
              exact hh
            · exact SlotKeys_set (SlotKeys_ensureIndex hk _) _ (key, d) (by omega)
            · intro r hr
              rcases List.mem_cons.1 hr with hr | hr
              · rw [hr]
                simp only [List.length_set, ensureIndex_length]
                omega
              · have := (sortedKeys_cons.1 hs).1 r hr
                simp only [List.length_set, ensureIndex_length]
                omega
    · rw [TopMap.orInsert, hEq]
      dsimp only
      refine ⟨btreeOrInsert_sorted hs, by simpa using hlen, ?_⟩
      refine Or.inr ⟨p, hh, hk, ?_⟩
      intro r hr
      rcases mem_btreeOrInsert hr with hr | hr
      · rw [hr]
        dsimp only
        omega
      · exact hb r hr

end OrInsertSpec

section ShrinkSpec

variable {α : Type}

theorem length_filter_isSome {t : List (Option (Int × α))} :
    (t.filter (fun s => s.isSome)).length = (t.filterMap id).length := by
  induction t with
  | nil => rfl
  | cons s t ih => cases s <;> simp [ih, List.filter_cons]

theorem len_eq_iter_length {m : TopMap α} : m.len = m.iter.length := by
  rw [TopMap.len, TopMap.iter, List.length_append, length_filter_isSome]

theorem shrink_spec {w : Nat} {m : TopMap α} (h : Inv w m) :
    (m.shrinkToFit w).iter = m.iter ∧ Inv w (m.shrinkToFit w) ∧
    (m.shrinkToFit w).top.length ≤ w / 2 := by
  obtain ⟨top, rest⟩ := m
  obtain ⟨hs, hlen, hcase⟩ := h
  dsimp only at hs hlen hcase
  rcases hcase with hnil | ⟨p, hh, hk, hb⟩
  · subst hnil
    rw [TopMap.shrinkToFit]
    dsimp only
    rw [show ([] : List (Option (Int × α))).length - w / 2 = 0 from by simp, drainBack]
    exact ⟨rfl, ⟨hs, by simp, Or.inl rfl⟩, by simp⟩
  · have hne : top ≠ [] := by
      intro h2
      rw [h2] at hh
      simp at hh
    obtain ⟨d1, d2, d3, d4⟩ := drainBack_spec (b := p.1) (top.length - w / 2) top rest hs
      hk hb (by omega)
    rw [TopMap.shrinkToFit]
    dsimp only
    refine ⟨d4, ⟨d2, ?_, ?_⟩, ?_⟩
    · rw [d1, List.length_take]
      omega
    · rcases Nat.eq_zero_or_pos (top.length - (top.length - w / 2)) with hz | hpos2
      · rw [d1, hz, List.take_zero]
        exact Or.inl rfl
      · refine Or.inr ⟨p, ?_, ?_, d3⟩
        · rw [d1, head?_take hpos2]
          exact hh
        · rw [d1]
          exact SlotKeys_take hk _
    · rw [d1, List.length_take]
      omega

end ShrinkSpec

section Assembly

variable {α : Type}

theorem inv_empty {w : Nat} : Inv w (TopMap.empty : TopMap α) :=
  ⟨by simp [sortedKeys, TopMap.empty], by simp [TopMap.empty], Or.inl rfl⟩

theorem reachable_inv {w : Nat} {m : TopMap α} (hw : 0 < w) (h : Reachable w m) :
    Inv w m := by
  induction h with
  | empty => exact inv_empty
  | insert k v h ih => exact (insert_spec ih hw k v).2.2
  | remove k h ih => exact (remove_spec ih k).2.2
  | orInsert k v h ih => exact orInsert_spec ih hw k v
  | shrinkToFit h ih => exact (shrink_spec ih).2.1
  | clear h ih => exact inv_empty

theorem runActs_spec {w : Nat} (hw : 0 < w) :
    ∀ (acts : List (Act α)) (m : TopMap α), Inv w m →
      TopMap.runActs w m acts = btreeRunActs m.iter acts := by
  intro acts
  induction acts with
  | nil => intro m h; rfl
  | cons a acts ih =>
    intro m h
    cases a with
    | insert k v =>
      obtain ⟨s1, s2, s3⟩ := insert_spec h hw k v
      rw [TopMap.runActs, btreeRunActs]
      dsimp only [TopMap.stepAct, btreeStepAct]
      rw [s1, ih _ s3, s2]
    | remove k =>
      obtain ⟨s1, s2, s3⟩ := remove_spec h k
      rw [TopMap.runActs, btreeRunActs]
      dsimp only [TopMap.stepAct, btreeStepAct]
      rw [s1, ih _ s3, s2]
    | get k =>
      rw [TopMap.runActs, btreeRunActs]
      dsimp only [TopMap.stepAct, btreeStepAct]
      rw [get_spec h k, ih _ h]

theorem set_getElem?_self {β : Type} {l : List β} {i : Nat} {a : β}
    (h : l[i]? = some a) : l.set i a = l := by
  induction l generalizing i with
  | nil => simp at h
  | cons s t ih =>
    cases i with
    | zero =>
      simp only [List.getElem?_cons_zero, Option.some.injEq] at h
      rw [List.set_cons_zero, h]
    | succ i =>
      simp only [List.getElem?_cons_succ] at h
      rw [List.set_cons_succ, ih h]

theorem remove_front_minsize {w : Nat} {m : TopMap α} (h : Inv w m) {k : Int}
    (hfront : m.index w k = Index.insideTop 0) {p q : Int × α}
    (hh2 : ((m.remove w k).2).top.head? = some (some p))
    (hq : q ∈ (m.remove w k).2.rest) : p.1 + ((w / 2 : Nat) : Int) ≤ q.1 := by
  obtain ⟨top, rest⟩ := m
  obtain ⟨hs, hlen, hcase⟩ := h
  dsimp only at hs hlen hcase
  rcases hcase with hnil | ⟨p₀, hh, hk, hb⟩
  · rw [index_of_empty hnil k] at hfront
    simp at hfront
  · have hne : top ≠ [] := by
      intro h2
      rw [h2] at hh
      simp at hh
    cases top with
    | nil => exact absurd rfl hne
    | cons s t =>
      have hsp : s = some p₀ := by simpa using hh
      subst hsp
      rw [TopMap.remove, hfront] at hh2 hq
      dsimp only at hh2 hq
      have hkt : SlotKeys (p₀.1 + 1) t := (SlotKeys_cons.1 hk).2
      have hb2 : ∀ r ∈ rest, p₀.1 + 1 + (t.length : Int) ≤ r.1 := by
        intro r hr
        have := hb r hr
        simp only [List.length_cons] at this
        push_cast at this ⊢
        omega
      rcases popHoles_cases hkt with hemp | ⟨p₂, t₂, he, hsk, hlen2, hble⟩
      · by_cases hmin : (popHoles t).length ≤ w / 2
        · rw [if_pos hmin] at hh2 hq
          obtain ⟨c1, c2, c3, c4⟩ := refill_spec (w := w) (m := ⟨popHoles t, rest⟩)
            hs (Or.inl hemp)
          rcases c2 with ⟨ce1, ce2⟩ | ⟨p₃, d1, d2, d3, d4⟩
          · dsimp only at hq
            rw [ce2] at hq
            simp at hq
          · dsimp only at hh2
            rw [d1] at hh2
            injection hh2 with hh2
            injection hh2 with hh2
            subst hh2
            exact d4 q hq
        · rw [if_neg hmin] at hh2 hq
          dsimp only at hh2
          rw [hemp] at hh2
          simp at hh2
      · by_cases hmin : (popHoles t).length ≤ w / 2
        · rw [if_pos hmin] at hh2 hq
          have hbnd : ∀ r ∈ rest,
              p₂.1 + (((⟨popHoles t, rest⟩ : TopMap α)).top.length : Int) ≤ r.1 := by
            intro r hr
            have := hb2 r hr
            dsimp only
            omega
          obtain ⟨c1, c2, c3, c4⟩ := refill_spec (w := w) (m := ⟨popHoles t, rest⟩)
            hs (Or.inr ⟨p₂, by rw [he]; rfl, hsk, hbnd⟩)
          rcases c2 with ⟨ce1, ce2⟩ | ⟨p₃, d1, d2, d3, d4⟩
          · dsimp only at hq
            rw [ce2] at hq
            simp at hq
          · dsimp only at hh2
            rw [d1] at hh2
            injection hh2 with hh2
            injection hh2 with hh2
            subst hh2
            exact d4 q hq
        · rw [if_neg hmin] at hh2 hq
          have hh2b : (popHoles t).head? = some (some p) := by simpa using hh2
          have hqb : q ∈ rest := by simpa using hq
          rw [he] at hh2b
          simp only [List.head?_cons, Option.some.injEq] at hh2b
          have hp2 : p₂ = p := by simpa using hh2b
          subst hp2
          have := hb2 q hqb
          omega

end Assembly

section Claims

/-- C1: Oracle equivalence.  For every finite sequence of insert, remove and
get actions with arbitrary integer keys and values, replaying the sequence on
a `TopMap` starting empty and on the reference ordered map starting empty
yields identical return values at every step: insert returns the same
previous value, remove the same removed value, get the same lookup result. -/
theorem spec_c1 {α : Type} (w : Nat) (hw : 0 < w) (acts : List (Act α)) :
    TopMap.runActs w (TopMap.empty : TopMap α) acts = btreeRunActs [] acts := by
  have h := runActs_spec (α := α) hw acts TopMap.empty inv_empty
  exact h

theorem spec_c1_witness :
    0 < 10 ∧
      TopMap.runActs 10 (TopMap.empty : TopMap Int)
          [Act.insert 100 1, Act.insert 15 2, Act.get 100, Act.remove 100,
            Act.get 100, Act.remove 100] =
        btreeRunActs []
          [Act.insert 100 1, Act.insert 15 2, Act.get 100, Act.remove 100,
            Act.get 100, Act.remove 100] :=
  ⟨by decide, spec_c1 10 (by decide)
    [Act.insert 100 1, Act.insert 15 2, Act.get 100, Act.remove 100,
      Act.get 100, Act.remove 100]⟩

/-- C2 counterexample: the claim asserts every overflow key keeps offset at
least `width` from the base key (invariant I1), and that the refill loop stops
only at offset `width`.  With width 10, after inserting keys 0, 15, 16, 20, 21
and removing 0, the refill loop stops at `min_size = width / 2 = 5`: the
window is re-based at 15 and the overflow store still holds key 20, whose
offset 20 − 15 = 5 is less than the width 10. -/
theorem spec_c2_counterexample :
    refillStopTrace.2.top.head? = some (some ((15 : Int), (15 : Int))) ∧
      ((20 : Int), (20 : Int)) ∈ refillStopTrace.2.rest ∧
      ¬((15 : Int) + (10 : Int) ≤ 20) := by decide

/-- C2 (amended): after every public operation every overflow key has offset
at least the window's current length (or the window is empty); the refill loop
after a front removal stops only when the next overflow candidate's offset
reaches `min_size = width / 2`, so after removing the front key of a reachable
state every overflow key has offset at least `width / 2` from the new base
key. -/
theorem spec_c2 {α : Type} {w : Nat} {m : TopMap α} (hw : 0 < w) (h : Reachable w m)
    {k : Int} (hfront : m.index w k = Index.insideTop 0) {p q : Int × α}
    (hh : ((m.remove w k).2).top.head? = some (some p))
    (hq : q ∈ (m.remove w k).2.rest) :
    p.1 + (((m.remove w k).2).top.length : Int) ≤ q.1 ∧
      p.1 + ((w / 2 : Nat) : Int) ≤ q.1 := by
  constructor
  · rcases (reachable_inv hw (Reachable.remove k h)).2.2 with hnil | ⟨r, hh2, _, hb2⟩
    · rw [hnil] at hh
      simp at hh
    · rw [hh2] at hh
      injection hh with hh
      injection hh with hh
      subst hh
      exact hb2 q hq
  · exact remove_front_minsize (reachable_inv hw h) hfront hh hq

theorem spec_c2_witness :
    (0 < 10 ∧
      (((((((TopMap.empty : TopMap Int).insert 10 0 0).2.insert 10 15 15).2.insert
        10 16 16).2.insert 10 20 20).2.insert 10 21 21).2).index 10 0 =
          Index.insideTop 0 ∧
      ((((((((TopMap.empty : TopMap Int).insert 10 0 0).2.insert 10 15 15).2.insert
        10 16 16).2.insert 10 20 20).2.insert 10 21 21).2).remove 10 0).2.top.head? =
          some (some ((15 : Int), (15 : Int))) ∧
      ((20 : Int), (20 : Int)) ∈
        ((((((((TopMap.empty : TopMap Int).insert 10 0 0).2.insert 10 15 15).2.insert
          10 16 16).2.insert 10 20 20).2.insert 10 21 21).2).remove 10 0).2.rest) ∧
    ((15 : Int) +
        (((((((((TopMap.empty : TopMap Int).insert 10 0 0).2.insert 10 15 15).2.insert
          10 16 16).2.insert 10 20 20).2.insert 10 21 21).2).remove
            10 0).2.top.length : Int) ≤ 20 ∧
      (15 : Int) + ((10 / 2 : Nat) : Int) ≤ 20) :=
  ⟨⟨by decide, by decide, by decide, by decide⟩,
    spec_c2 (w := 10) (k := 0) (p := (15, 15)) (q := (20, 20)) (by decide)
      (Reachable.insert 21 21 (Reachable.insert 20 20 (Reachable.insert 16 16
        (Reachable.insert 15 15 (Reachable.insert 0 0 Reachable.empty)))))
      (by decide) (by decide) (by decide)⟩

/-- C3 counterexample: the claim asserts that a key whose offset is in
`[0, width)` but at least the window length always reads as absent.  With
width 10, insert keys 0 through 10 and remove 0: the window has length 9 with
base key 1, and key 10 (offset 9, which is at least the window length 9 and
below the width 10) is held by the overflow store, so `get` returns it. -/
theorem spec_c3_counterexample :
    outsideLookupTrace.index 10 10 = Index.outsideTop 9 ∧
      outsideLookupTrace.top.length = 9 ∧ (9 : Nat) < 10 ∧
      outsideLookupTrace.get 10 10 = some 10 ∧
      outsideLookupTrace.getMut 10 10 = some 10 := by decide

/-- C3 (amended): for every key classified `OutsideTop` (offset at least the
window length but below the width), `get` and `get_mut` return the overflow
store's lookup result for the key — absent exactly when the key is not in the
overflow store. -/
theorem spec_c3 {α : Type} {w : Nat} {m : TopMap α} {key : Int} {i : Nat}
    (h : m.index w key = Index.outsideTop i) :
    m.get w key = btreeGet key m.rest ∧ m.getMut w key = btreeGet key m.rest := by
  refine ⟨?_, ?_⟩
  · rw [TopMap.get, h]
  · rw [TopMap.getMut, h]

theorem spec_c3_witness :
    outsideLookupTrace.index 10 10 = Index.outsideTop 9 ∧
      (outsideLookupTrace.get 10 10 = btreeGet 10 outsideLookupTrace.rest ∧
        outsideLookupTrace.getMut 10 10 = btreeGet 10 outsideLookupTrace.rest) :=
  ⟨by decide, spec_c3 (w := 10) (m := outsideLookupTrace) (i := 9) (by decide)⟩

/-- C4 counterexample: the claim asserts that after inserting the six sample
items with width 10 and removing keys 100 and 101, the window holds exactly
key 200 and the overflow store holds keys 201, 300 and 301.  In fact the
refill loop pulls key 201 (offset 1 < min_size = 5) back into the window as
well: the window holds keys 200 and 201 and overflow holds only 300 and 301,
matching the repository's own `remove` test. -/
theorem spec_c4_counterexample :
    sampleRemove1.1 = some "a1" ∧ sampleRemove2.1 = some "a2" ∧
      (sampleRemove2.2.top.filterMap id).map Prod.fst = [200, 201] ∧
      ¬((sampleRemove2.2.top.filterMap id).map Prod.fst = [200]) ∧
      ¬(sampleRemove2.2.rest.map Prod.fst = [201, 300, 301]) := by decide

/-- C4 (amended): with width 10, after inserting keys 100, 101, 200, 201, 300,
301 with values a1, a2, b1, b2, c1, c2 the window holds keys 100 and 101 and
the overflow store the other four; `remove(100)` returns a1 and `remove(101)`
returns a2; after both removals the window is re-baselined from overflow's
minimum and holds exactly keys 200 and 201, and the overflow store holds
exactly keys 300 and 301. -/
theorem spec_c4 :
    (sampleMap.top.filterMap id).map Prod.fst = [100, 101] ∧
      sampleMap.rest.map Prod.fst = [200, 201, 300, 301] ∧
      sampleRemove1.1 = some "a1" ∧ sampleRemove2.1 = some "a2" ∧
      sampleRemove2.2.top.filterMap id = [(200, "b1"), (201, "b2")] ∧
      sampleRemove2.2.rest = [(300, "c1"), (301, "c2")] := by decide

/-- C5: for every reachable state, `iter()` (the window's occupied slots in
position order followed by the overflow entries in key order) yields pairs in
strictly increasing key order; in particular every window key is numerically
less than every overflow key. -/
theorem spec_c5 {α : Type} {w : Nat} {m : TopMap α} (hw : 0 < w) (h : Reachable w m) :
    sortedKeys m.iter ∧ m.iter = m.top.filterMap id ++ m.rest :=
  ⟨iter_sorted (reachable_inv hw h), rfl⟩

theorem spec_c5_witness :
    0 < 10 ∧
      (sortedKeys (((TopMap.empty : TopMap Int).insert 10 0 0).2.insert 10 100 100).2.iter ∧
        (((TopMap.empty : TopMap Int).insert 10 0 0).2.insert 10 100 100).2.iter =
          ((((TopMap.empty : TopMap Int).insert 10 0 0).2.insert 10 100
            100).2.top.filterMap id) ++
            (((TopMap.empty : TopMap Int).insert 10 0 0).2.insert 10 100 100).2.rest) :=
  ⟨by decide, spec_c5 (by decide) (Reachable.insert 100 100 (Reachable.insert 0 0
    Reachable.empty))⟩

/-- C6: the window length never exceeds the configured width for any state
reachable by the public operations, including inserts below the base key and
entry-based inserts that grow the window on demand. -/
theorem spec_c6 {α : Type} {w : Nat} {m : TopMap α} (hw : 0 < w) (h : Reachable w m) :
    m.top.length ≤ w :=
  (reachable_inv hw h).2.1

theorem spec_c6_witness :
    0 < 10 ∧
      ((((TopMap.empty : TopMap Int).insert 10 5 55).2.insert 10 7 77).2).top.length ≤ 10 :=
  ⟨by decide, spec_c6 (by decide)
    (Reachable.insert 7 77 (Reachable.insert 5 55 Reachable.empty))⟩

/-- C7: removing an absent key is a no-op.  For every reachable state and
every key that is not stored (its lookup is empty), `remove` returns none and
leaves the state unchanged, so repeating the removal returns none again; in
particular removing a key far below the window's base key returns none with
no state change. -/
theorem spec_c7 {α : Type} {w : Nat} {m : TopMap α} (hw : 0 < w) (h : Reachable w m)
    {k : Int} (habs : m.get w k = none) : m.remove w k = (none, m) := by
  have hInv := reachable_inv hw h
  obtain ⟨top, rest⟩ := m
  obtain ⟨hs, hlen, hcase⟩ := hInv
  dsimp only at hs hlen hcase
  rcases hcase with hnil | ⟨p, hh, hk, hb⟩
  · subst hnil
    rw [TopMap.get, index_of_empty rfl k] at habs
    dsimp only at habs
    rw [TopMap.remove, index_of_empty rfl k]
    dsimp only
    rw [btreeRemove_of_get_none habs]
  · have hne : top ≠ [] := by
      intro h2
      rw [h2] at hh
      simp at hh
    rcases index_spec (w := w) (m := TopMap.mk top rest) hh k with ⟨h1, hEq⟩ |
      ⟨h1, h2, h3, hEq⟩ | ⟨h1, h2, h3, hEq⟩ | ⟨h1, hEq⟩
    · rw [TopMap.remove, hEq]
    · rw [TopMap.get, hEq] at habs
      dsimp only at habs
      have h3b : k < p.1 + (top.length : Int) := by simpa using h3
      have hlt : (k - p.1).toNat < top.length := by omega
      rcases Nat.eq_zero_or_pos (k - p.1).toNat with hz | hposi
      · exfalso
        rw [hz] at habs
        cases top with
        | nil => exact absurd rfl hne
        | cons s t =>
          have hsp : s = some p := by simpa using hh
          subst hsp
          simp at habs
      · obtain ⟨i₀, hi⟩ : ∃ i₀, (k - p.1).toNat = i₀ + 1 :=
          ⟨(k - p.1).toNat - 1, by omega⟩
        rw [hi] at hEq habs
        rw [TopMap.remove, hEq]
        dsimp only
        rw [hi] at hlt
        have hsl : top[i₀ + 1]? = some none := by
          have hsome := List.getElem?_eq_getElem hlt
          cases hval : top[i₀ + 1] with
          | none =>
            rw [hval] at hsome
            exact hsome
          | some r =>
            exfalso
            rw [hsome, hval] at habs
            simp at habs
        rw [hsl, set_getElem?_self hsl]
        rfl
    · rw [TopMap.get, hEq] at habs
      dsimp only at habs
      rw [TopMap.remove, hEq]
      dsimp only
      rw [btreeRemove_of_get_none habs]
    · rw [TopMap.get, hEq] at habs
      dsimp only at habs
      rw [TopMap.remove, hEq]
      dsimp only
      rw [btreeRemove_of_get_none habs]

theorem spec_c7_witness :
    (0 < 10 ∧ (((TopMap.empty : TopMap Int).insert 10 100 1).2).get 10 (-999) = none) ∧
      (((TopMap.empty : TopMap Int).insert 10 100 1).2).remove 10 (-999) =
        (none, (((TopMap.empty : TopMap Int).insert 10 100 1).2)) :=
  ⟨⟨by decide, by decide⟩,
    spec_c7 (w := 10) (k := -999) (by decide)
      (Reachable.insert 100 1 Reachable.empty) (by decide)⟩

/-- C8: implicit invariant — whenever the window is non-empty (its front slot
holds the base pair), every key in the overflow store has offset at least the
current window length from the base key.  The invariant holds in the empty
state vacuously and is preserved by insert, remove, entry-based upsert and
shrink_to_fit, which is what makes the `OutsideTop` delegation of get,
get_mut and remove to the overflow store correct. -/
theorem spec_c8 {α : Type} {w : Nat} {m : TopMap α} (hw : 0 < w) (h : Reachable w m)
    {p q : Int × α} (hh : m.top.head? = some (some p)) (hq : q ∈ m.rest) :
    p.1 + (m.top.length : Int) ≤ q.1 := by
  rcases (reachable_inv hw h).2.2 with hnil | ⟨r, hh2, _, hb2⟩
  · rw [hnil] at hh
    simp at hh
  · rw [hh2] at hh
    injection hh with hh
    injection hh with hh
    subst hh
    exact hb2 q hq

theorem spec_c8_witness :
    (0 < 10 ∧
      ((((TopMap.empty : TopMap Int).insert 10 0 0).2.insert 10 100 100).2).top.head? =
        some (some ((0 : Int), (0 : Int))) ∧
      ((100 : Int), (100 : Int)) ∈
        ((((TopMap.empty : TopMap Int).insert 10 0 0).2.insert 10 100 100).2).rest) ∧
    (0 : Int) +
        (((((TopMap.empty : TopMap Int).insert 10 0 0).2.insert 10 100
          100).2).top.length : Int) ≤ 100 :=
  ⟨⟨by decide, by decide, by decide⟩,
    spec_c8 (w := 10) (p := (0, 0)) (q := (100, 100)) (by decide)
      (Reachable.insert 100 100 (Reachable.insert 0 0 Reachable.empty))
      (by decide) (by decide)⟩

/-- C9: implicit safety invariant — whenever the window of a reachable state
is non-empty, its front slot is occupied, so the classifier's
`expect("top entry should be filled")` and the unwrap on `pop_front` in the
front-removal path of `remove` never hit their panic cases. -/
theorem spec_c9 {α : Type} {w : Nat} {m : TopMap α} (hw : 0 < w) (h : Reachable w m)
    (hne : m.top ≠ []) : (m.top.head?.bind id).isSome = true := by
  rcases (reachable_inv hw h).2.2 with hnil | ⟨p, hh, _, _⟩
  · exact absurd hnil hne
  · rw [hh]
    rfl

theorem spec_c9_witness :
    (0 < 10 ∧ (((TopMap.empty : TopMap Int).insert 10 5 55).2).top ≠ []) ∧
      ((((TopMap.empty : TopMap Int).insert 10 5 55).2).top.head?.bind id).isSome = true :=
  ⟨⟨by decide, by decide⟩,
    spec_c9 (by decide) (Reachable.insert 5 55 Reachable.empty) (by decide)⟩

/-- C10: implicit frame property — `shrink_to_fit` moves trailing window slots
into the overflow store until the window length is at most `min_size =
width / 2`, and changes nothing observable: `len()` is unchanged and `get`
returns the same result for every key. -/
theorem spec_c10 {α : Type} {w : Nat} {m : TopMap α} (hw : 0 < w) (h : Reachable w m)
    (k : Int) :
    (m.shrinkToFit w).top.length ≤ w / 2 ∧ (m.shrinkToFit w).len = m.len ∧
      (m.shrinkToFit w).get w k = m.get w k := by
  have hInv := reachable_inv hw h
  obtain ⟨s1, s2, s3⟩ := shrink_spec hInv
  refine ⟨s3, ?_, ?_⟩
  · rw [len_eq_iter_length, len_eq_iter_length, s1]
  · rw [get_spec s2 k, get_spec hInv k, s1]

theorem spec_c10_witness :
    0 < 10 ∧
      (((((TopMap.empty : TopMap Int).insert 10 0 0).2.insert 10 7 7).2).shrinkToFit
          10).top.length ≤ 10 / 2 ∧
      (((((TopMap.empty : TopMap Int).insert 10 0 0).2.insert 10 7 7).2).shrinkToFit
          10).len = ((((TopMap.empty : TopMap Int).insert 10 0 0).2.insert 10 7 7).2).len ∧
      (((((TopMap.empty : TopMap Int).insert 10 0 0).2.insert 10 7 7).2).shrinkToFit
          10).get 10 7 = ((((TopMap.empty : TopMap Int).insert 10 0 0).2.insert 10 7
            7).2).get 10 7 :=
  ⟨by decide, spec_c10 (by decide)
    (Reachable.insert 7 7 (Reachable.insert 0 0 Reachable.empty)) 7⟩

end Claims

end RustTopMap
